import Mathlib

/-!
Verification of the lqp-proto core: an in-memory logical query plan (LQP),
a DAG of operator nodes owned by a graph container, with a reverse
(child -> parents) index and structural rewrite primitives.

The embedding models C++ object identity by natural-number identifiers.
`heap` is the collection of live node objects (identifier, current contents);
`owned` is the graph's ownership map (the keys of `LQP::nodes`);
`edges` is the reverse index's (child, parent) multiset
(`ReverseDAGIndex::node_parents`); `nextId` is the allocator: every live
object has an identifier below it, and fresh objects get fresh identifiers.
The borrow count of a node is derived: every input slot of a live node holds
one counted reference (`LQPNodeRef`), and no operation of the container hands
out a counted reference (`make_node` returns a plain reference), so a node's
count is the number of occurrences of it in live nodes' input lists.
-/

namespace LQPProto

/-- The failure kinds of the source's `std::logic_error` throws and fatal
checks, named as in the spec's error taxonomy. -/
inductive GErr where
  | RootNotSet
  | NodeNotFound
  | NonZeroRefCount
  | HasParents
  | DuplicateEdge
  | EdgeNotFound
  | TargetAlreadyHasParents
  | InputNotFound
  | NotReplaceable
  deriving DecidableEq, Repr

/-- The concrete node classes of the source: `StoredTableNode` (leaf),
`PredicateNode` (single input), `JoinNode` (left and right inputs).
Payloads are the opaque strings the source stores; inputs are identifiers
of the referenced node objects. -/
inductive Node where
  | storedTable (name : String)
  | predicate (pred : String) (input : Nat)
  | join (left right : Nat)
  deriving DecidableEq, Repr

/-- `AbstractLQPNode::get_inputs`: ordered input list
(empty for leaves, one for single-input, left then right for joins). -/
def Node.get_inputs : Node → List Nat
  | .storedTable _ => []
  | .predicate _ i => [i]
  | .join l r => [l, r]

/-- `AbstractLQPNode::replace_input`: a leaf always fails; a single-input
node rewires its slot when `old` is identical to the current input, else
fails; a join tries the left slot first, then the right slot, and fails
when neither holds `old`.  Identity comparison of the source
(`&old_input == &input.get_node()`) is identifier equality here. -/
def Node.replace_input : Node → Nat → Nat → Except GErr Node
  | .storedTable _, _, _ => .error .NotReplaceable
  | .predicate s i, old, nw =>
      if old = i then .ok (.predicate s nw) else .error .InputNotFound
  | .join l r, old, nw =>
      if old = l then .ok (.join nw r)
      else if old = r then .ok (.join l nw)
      else .error .InputNotFound

/-- The reverse index (`ReverseDAGIndex`): a multiset of (child, parent)
edges, held as a list. -/
abbrev DAGEdges := List (Nat × Nat)

namespace ReverseDAGIndex

/-- `ReverseDAGIndex::get_parents`: the current parents of `n`. -/
def get_parents (edges : DAGEdges) (n : Nat) : List Nat :=
  (edges.filter (fun e => e.1 = n)).map Prod.snd

/-- `ReverseDAGIndex::get_parent_count`: `node_parents.count(&node)`. -/
def get_parent_count (edges : DAGEdges) (n : Nat) : Nat :=
  (edges.filter (fun e => e.1 = n)).length

/-- `ReverseDAGIndex::add`: fails when the (child, parent) link already
exists, otherwise inserts it. -/
def add (edges : DAGEdges) (c p : Nat) : Except GErr DAGEdges :=
  if (c, p) ∈ edges then .error .DuplicateEdge
  else .ok (edges ++ [(c, p)])

/-- `ReverseDAGIndex::remove`: fails when the link does not exist,
otherwise deletes exactly one matching entry. -/
def remove (edges : DAGEdges) (c p : Nat) : Except GErr DAGEdges :=
  if (c, p) ∈ edges then .ok (edges.erase (c, p))
  else .error .EdgeNotFound

end ReverseDAGIndex

/-- Adding a sequence of edges through `ReverseDAGIndex::add`, stopping at
the first failure.  The second component is the index state when the loop
returns or throws: edges added before a failure stay added, as in the
source. -/
def add_edge_list : DAGEdges → List (Nat × Nat) → Except GErr Unit × DAGEdges
  | edges, [] => (.ok (), edges)
  | edges, e :: es =>
    match ReverseDAGIndex.add edges e.1 e.2 with
    | .ok e2 => add_edge_list e2 es
    | .error err => (.error err, edges)

/-- Removing a sequence of edges through `ReverseDAGIndex::remove`.  The
second component is the index state when the call returns or throws: edges
removed before a failure stay removed, as in the source. -/
def remove_edge_list : DAGEdges → List (Nat × Nat) → Except GErr Unit × DAGEdges
  | edges, [] => (.ok (), edges)
  | edges, e :: es =>
    match ReverseDAGIndex.remove edges e.1 e.2 with
    | .ok e2 => remove_edge_list e2 es
    | .error err => (.error err, edges)

namespace ReverseDAGIndex

/-- `ReverseDAGIndex::replace_input`: fails when `nw` already has a
recorded parent; otherwise re-adds every parent link of `old` to `nw` and
erases all of `old`'s links. -/
def replace_input (edges : DAGEdges) (old nw : Nat) : Except GErr DAGEdges :=
  if get_parent_count edges nw ≠ 0 then .error .TargetAlreadyHasParents
  else
    match add_edge_list edges ((get_parents edges old).map (fun p => (nw, p))) with
    | (.ok _, e1) => .ok (e1.filter (fun e => e.1 ≠ old))
    | (.error err, _) => .error err

end ReverseDAGIndex

/-- The state of one `LQP` container together with the live node objects it
interacts with. -/
structure LQPState where
  heap : List (Nat × Node)
  owned : List Nat
  edges : DAGEdges
  root : Option Nat
  nextId : Nat
  deriving DecidableEq, Repr

/-- Dereferencing a node identifier: the contents of the live object, if
any object with this identifier is live. -/
def lookupNode : List (Nat × Node) → Nat → Option Node
  | [], _ => none
  | q :: qs, n => if q.1 = n then some q.2 else lookupNode qs n

/-- A node identifier refers to a live object. -/
def isLive (s : LQPState) (n : Nat) : Prop :=
  (lookupNode s.heap n).isSome = true

instance (s : LQPState) (n : Nat) : Decidable (isLive s n) := by
  unfold isLive; infer_instance

/-- The borrow count of a node (`LQPNodeRefManager::get_ref_count`): one
counted reference lives in every input slot holding this node, and the
container's operations hold no other counted reference. -/
def ref_count_heap (heap : List (Nat × Node)) (n : Nat) : Nat :=
  (heap.map (fun q => q.2.get_inputs.count n)).sum

def LQPState.ref_count (s : LQPState) (n : Nat) : Nat :=
  ref_count_heap s.heap n

namespace LQP

/-- `LQP::make_node`: construct the node, register one (input, new node)
edge per input, store the node under a fresh identifier.  A failed `add`
propagates before the node is stored; the edges added before the failure
stay in the index while the half-built node is destroyed, so the second
component is the state at return or throw.  The destroyed node's
identifier is treated as consumed, as identifiers model never-reused
addresses. -/
def make_node (s : LQPState) (nd : Node) : Except GErr Nat × LQPState :=
  match add_edge_list s.edges (nd.get_inputs.map (fun c => (c, s.nextId))) with
  | (.error err, e2) => (.error err, { s with edges := e2, nextId := s.nextId + 1 })
  | (.ok _, e2) =>
    (.ok s.nextId,
     { s with
        heap := s.heap ++ [(s.nextId, nd)],
        owned := s.owned ++ [s.nextId],
        edges := e2,
        nextId := s.nextId + 1 })

/-- `LQP::remove_node`.  The source takes a live object reference; calling
it with a dead identifier would be undefined in C++ and is mapped to the
`NodeNotFound` failure here.  The second component is the state at return
or throw: index removals that happened before a failure are not rolled
back. -/
def remove_node (s : LQPState) (n : Nat) : Except GErr Unit × LQPState :=
  match lookupNode s.heap n with
  | none => (.error .NodeNotFound, s)
  | some nd =>
    if s.ref_count n ≠ 0 then (.error .NonZeroRefCount, s)
    else if ReverseDAGIndex.get_parent_count s.edges n ≠ 0 then (.error .HasParents, s)
    else
      match remove_edge_list s.edges (nd.get_inputs.map (fun c => (c, n))) with
      | (.error err, e2) => (.error err, { s with edges := e2 })
      | (.ok _, e2) =>
        if n ∈ s.owned then
          (.ok (), { s with
                      heap := s.heap.filter (fun q => q.1 ≠ n),
                      owned := s.owned.filter (fun m => m ≠ n),
                      edges := e2 })
        else (.error .NodeNotFound, { s with edges := e2 })

/-- `LQP::set_root`. -/
def set_root (s : LQPState) (n : Nat) : LQPState :=
  { s with root := some n }

/-- `LQP::get_root`. -/
def get_root (s : LQPState) : Except GErr Nat :=
  match s.root with
  | none => .error .RootNotSet
  | some n => .ok n

end LQP

/-- One entry of the heap updated to new contents (assignment through the
graph's mutable access to its own node). -/
def updateHeap (heap : List (Nat × Node)) (p : Nat) (nd2 : Node) : List (Nat × Node) :=
  heap.map (fun q => if q.1 = p then (q.1, nd2) else q)

/-- Calling `parent.replace_input(old, new)` on the live object `p`. -/
def replace_in_heap (heap : List (Nat × Node)) (p old nw : Nat) :
    Except GErr (List (Nat × Node)) :=
  match lookupNode heap p with
  | none => .error .NodeNotFound
  | some nd =>
    match nd.replace_input old nw with
    | .ok nd2 => .ok (updateHeap heap p nd2)
    | .error err => .error err

/-- The parent-rewiring loops of `wrap_node_with` and `bypass_node`:
`replace_input(old, nw)` on each listed parent in turn. -/
def rewire_parents : List (Nat × Node) → List Nat → Nat → Nat →
    Except GErr (List (Nat × Node))
  | heap, [], _, _ => .ok heap
  | heap, p :: ps, old, nw =>
    match replace_in_heap heap p old nw with
    | .ok h2 => rewire_parents h2 ps old nw
    | .error err => .error err

namespace LQP

/-- `LQP::wrap_node_with<PredicateNode>`: create the wrapper with `n` as
its input, rewire every current parent of `n` other than the wrapper
itself, then remove the transient (n, w) edge, migrate `n`'s parent edges
to `w`, and re-add (n, w).  `PredicateNode` is the source's only
single-input node type. -/
def wrap_node_with (s : LQPState) (n : Nat) (pred : String) :
    Except GErr (LQPState × Nat) :=
  match make_node s (.predicate pred n) with
  | (.error err, _) => .error err
  | (.ok w, s1) =>
    match rewire_parents s1.heap
        ((ReverseDAGIndex.get_parents s1.edges n).filter (fun p => p ≠ w)) n w with
    | .error err => .error err
    | .ok heap2 =>
      match ReverseDAGIndex.remove s1.edges n w with
      | .error err => .error err
      | .ok e1 =>
        match ReverseDAGIndex.replace_input e1 n w with
        | .error err => .error err
        | .ok e2 =>
          match ReverseDAGIndex.add e2 n w with
          | .error err => .error err
          | .ok e3 => .ok ({ s1 with heap := heap2, edges := e3 }, w)

/-- `LQP::bypass_node`: rewire every current parent of the single-input
node `n` to `n`'s own input, require a zero borrow count, erase `n` from
the ownership map (destroying the object), then remove the (input, n)
edge and migrate `n`'s parent edges to its input.  The source restricts
the argument to `AbstractSingleInputNode` at compile time; a
non-single-input identifier is mapped to `NodeNotFound` here.  The second
component is the state at return or throw: the parent rewiring and the
ownership erase precede the index `remove`/`replace_input` that can
throw, and nothing is rolled back on a failure. -/
def bypass_node (s : LQPState) (n : Nat) : Except GErr Unit × LQPState :=
  match lookupNode s.heap n with
  | some (.predicate _ g) =>
    match rewire_parents s.heap (ReverseDAGIndex.get_parents s.edges n) n g with
    | .error err => (.error err, s)
    | .ok heap2 =>
      if ref_count_heap heap2 n ≠ 0 then
        (.error .NonZeroRefCount, { s with heap := heap2 })
      else if n ∉ s.owned then
        (.error .NodeNotFound, { s with heap := heap2 })
      else
        match ReverseDAGIndex.remove s.edges g n with
        | .error err =>
          (.error err, { s with
                          heap := heap2.filter (fun q => q.1 ≠ n),
                          owned := s.owned.filter (fun m => m ≠ n) })
        | .ok e1 =>
          match ReverseDAGIndex.replace_input e1 n g with
          | .error err =>
            (.error err, { s with
                            heap := heap2.filter (fun q => q.1 ≠ n),
                            owned := s.owned.filter (fun m => m ≠ n),
                            edges := e1 })
          | .ok e2 =>
            (.ok (), { s with
                        heap := heap2.filter (fun q => q.1 ≠ n),
                        owned := s.owned.filter (fun m => m ≠ n),
                        edges := e2 })
  | _ => (.error .NodeNotFound, s)

/-- `LQP::visit`: pre-order depth-first traversal.  The visitor receives
the state by mutable reference (modelled as returning the mutated state
alongside the continue flag); each input is visited with its own copy of
the mutated state (`State state` is passed by value in the source).  The
result is the trace of visitor invocations: the (node, observed state)
pairs in invocation order.  The source recursion is unbounded (it
terminates on DAGs); `fuel` bounds the modelled recursion depth. -/
def visit {σ : Type} (heap : List (Nat × Node)) (f : Node → σ → Bool × σ) :
    Nat → Nat → σ → List (Nat × σ)
  | 0, _, _ => []
  | fuel + 1, n, st =>
    match lookupNode heap n with
    | none => []
    | some nd =>
      let r := f nd st
      (n, st) ::
        (if r.1 then (nd.get_inputs.map (fun c => visit heap f fuel c r.2)).flatten
         else [])

end LQP

/-! ### Association-list lemmas -/

theorem lookupNode_append (h1 h2 : List (Nat × Node)) (n : Nat) :
    lookupNode (h1 ++ h2) n =
      match lookupNode h1 n with
      | some v => some v
      | none => lookupNode h2 n := by
  induction h1 with
  | nil => simp [lookupNode]
  | cons q qs ih =>
    by_cases hq : q.1 = n <;> simp [lookupNode, hq, ih]

theorem lookupNode_eq_none_iff (h : List (Nat × Node)) (n : Nat) :
    lookupNode h n = none ↔ n ∉ h.map Prod.fst := by
  induction h with
  | nil => simp [lookupNode]
  | cons q qs ih =>
    by_cases hq : q.1 = n
    · simp [lookupNode, hq]
    · have hn : n ≠ q.1 := fun he => hq he.symm
      rw [lookupNode, if_neg hq, ih, List.map_cons]
      simp [hn]

theorem lookupNode_isSome_iff (h : List (Nat × Node)) (n : Nat) :
    (lookupNode h n).isSome = true ↔ n ∈ h.map Prod.fst := by
  rw [← Decidable.not_iff_not, ← lookupNode_eq_none_iff]
  cases lookupNode h n <;> simp

theorem lookupNode_mem {h : List (Nat × Node)} {n : Nat} {nd : Node}
    (hl : lookupNode h n = some nd) : (n, nd) ∈ h := by
  induction h with
  | nil => simp [lookupNode] at hl
  | cons q qs ih =>
    rcases q with ⟨a, b⟩
    by_cases hq : a = n
    · simp only [lookupNode, hq] at hl
      simp only [if_true] at hl
      injection hl with h2
      subst h2
      subst hq
      exact List.mem_cons_self _ _
    · have : (a, b).1 = n ↔ False := by simpa using hq
      rw [lookupNode, if_neg (by simpa using hq)] at hl
      exact List.mem_cons_of_mem _ (ih hl)

theorem lookupNode_of_mem {h : List (Nat × Node)} {q : Nat × Node}
    (hk : (h.map Prod.fst).Nodup) (hq : q ∈ h) : lookupNode h q.1 = some q.2 := by
  induction h with
  | nil => simp at hq
  | cons r rs ih =>
    rw [List.map_cons, List.nodup_cons] at hk
    rcases List.mem_cons.mp hq with rfl | hq2
    · simp [lookupNode]
    · have hne : r.1 ≠ q.1 := by
        intro he
        exact hk.1 (by rw [he]; exact List.mem_map_of_mem Prod.fst hq2)
      simp [lookupNode, hne, ih hk.2 hq2]

theorem lookupNode_filter_ne (h : List (Nat × Node)) (n x : Nat) :
    lookupNode (h.filter (fun q => q.1 ≠ n)) x =
      if x = n then none else lookupNode h x := by
  induction h with
  | nil => simp [lookupNode]
  | cons q qs ih =>
    simp only [ne_eq] at ih ⊢
    rw [List.filter_cons]
    by_cases hq : q.1 = n
    · rw [if_neg (by simp [hq]), ih]
      by_cases hx : x = n
      · simp [hx]
      · have hqx : q.1 ≠ x := by
          rw [hq]
          exact fun he => hx he.symm
        simp [lookupNode, hx, hqx]
    · rw [if_pos (by simp [hq])]
      by_cases hqx : q.1 = x
      · have hx : ¬x = n := by
          rw [← hqx]
          exact hq
        simp [lookupNode, hqx, hx]
      · rw [lookupNode, if_neg hqx, ih]
        by_cases hx : x = n <;> simp [hx, lookupNode, hqx]

theorem lookupNode_updateHeap (h : List (Nat × Node)) (p : Nat) (nd2 : Node) (x : Nat) :
    lookupNode (updateHeap h p nd2) x =
      if x = p then (lookupNode h p).map (fun _ => nd2) else lookupNode h x := by
  induction h with
  | nil => simp [lookupNode, updateHeap]
  | cons q qs ih =>
    simp only [updateHeap, List.map_cons] at ih ⊢
    by_cases hq : q.1 = p <;> by_cases hqx : q.1 = x
    · have hx : x = p := by rw [← hqx, hq]
      simp [lookupNode, hq, hqx, hx]
    · have hx : ¬x = p := by
        intro he
        exact hqx (by rw [hq, he])
      simp only [if_pos hq]
      rw [lookupNode, if_neg hqx, ih, if_neg hx, if_neg hx]
      simp [lookupNode, hqx]
    · have hx : ¬x = p := by
        rw [← hqx]
        exact hq
      simp [lookupNode, hq, hqx, hx]
    · simp only [if_neg hq]
      rw [lookupNode, if_neg hqx, ih]
      by_cases hx : x = p
      · simp [hx, lookupNode, if_neg (hx ▸ hqx), if_neg hq]
      · simp [hx, lookupNode, if_neg hqx]

theorem updateHeap_keys (h : List (Nat × Node)) (p : Nat) (nd2 : Node) :
    (updateHeap h p nd2).map Prod.fst = h.map Prod.fst := by
  induction h with
  | nil => rfl
  | cons q qs ih =>
    by_cases hq : q.1 = p <;> simp only [updateHeap, List.map_cons] at ih ⊢ <;>
      simp [hq, ih]

theorem lookupNode_map_entry (f : Node → Node) (h : List (Nat × Node)) (x : Nat) :
    lookupNode (h.map (fun q => (q.1, f q.2))) x = (lookupNode h x).map f := by
  induction h with
  | nil => simp [lookupNode]
  | cons q qs ih =>
    by_cases hq : q.1 = x <;> simp [lookupNode, hq, ih]

/-! ### Reverse-index lemmas -/

theorem mem_get_parents {edges : DAGEdges} {n p : Nat} :
    p ∈ ReverseDAGIndex.get_parents edges n ↔ (n, p) ∈ edges := by
  constructor
  · intro hp
    rcases List.mem_map.mp hp with ⟨e, he, rfl⟩
    rcases List.mem_filter.mp he with ⟨he1, he2⟩
    have h1 : e.1 = n := by simpa using he2
    rcases e with ⟨c, q⟩
    cases h1
    exact he1
  · intro hp
    exact List.mem_map.mpr ⟨(n, p), List.mem_filter.mpr ⟨hp, by simp⟩, rfl⟩

theorem get_parents_append (e1 e2 : DAGEdges) (n : Nat) :
    ReverseDAGIndex.get_parents (e1 ++ e2) n =
      ReverseDAGIndex.get_parents e1 n ++ ReverseDAGIndex.get_parents e2 n := by
  simp [ReverseDAGIndex.get_parents]

theorem get_parent_count_eq_countP (edges : DAGEdges) (n : Nat) :
    ReverseDAGIndex.get_parent_count edges n = edges.countP (fun e => e.1 = n) :=
  (List.countP_eq_length_filter _ _).symm

theorem get_parent_count_eq_length (edges : DAGEdges) (n : Nat) :
    ReverseDAGIndex.get_parent_count edges n =
      (ReverseDAGIndex.get_parents edges n).length := by
  simp [ReverseDAGIndex.get_parent_count, ReverseDAGIndex.get_parents]

theorem get_parent_count_eq_zero_iff (edges : DAGEdges) (n : Nat) :
    ReverseDAGIndex.get_parent_count edges n = 0 ↔ ∀ p, (n, p) ∉ edges := by
  unfold ReverseDAGIndex.get_parent_count
  rw [List.length_eq_zero, List.filter_eq_nil_iff]
  constructor
  · intro h p hp
    simpa using h (n, p) hp
  · intro h e he
    rcases e with ⟨c, q⟩
    simp only [decide_eq_true_eq]
    intro hc
    cases hc
    exact h q he

theorem get_parents_eq_nil (edges : DAGEdges) (n : Nat)
    (h0 : ReverseDAGIndex.get_parent_count edges n = 0) :
    ReverseDAGIndex.get_parents edges n = [] := by
  unfold ReverseDAGIndex.get_parent_count at h0
  rw [List.length_eq_zero] at h0
  unfold ReverseDAGIndex.get_parents
  rw [h0]
  rfl

theorem count_get_parents (edges : DAGEdges) (n p : Nat) :
    (ReverseDAGIndex.get_parents edges n).count p = edges.count (n, p) := by
  induction edges with
  | nil => simp [ReverseDAGIndex.get_parents]
  | cons e es ih =>
    rcases e with ⟨c, q⟩
    unfold ReverseDAGIndex.get_parents at ih ⊢
    rw [List.filter_cons]
    by_cases hc : c = n
    · cases hc
      rw [if_pos (by simp), List.map_cons, List.count_cons, List.count_cons, ih]
      by_cases hq : p = q
      · cases hq
        simp
      · have h1 : (q == p) = false := by
          simp only [beq_eq_false_iff_ne, ne_eq]
          exact fun h => hq h.symm
        have h2 : (((n, q) : Nat × Nat) == (n, p)) = false := by
          simp only [beq_eq_false_iff_ne, ne_eq, Prod.mk.injEq, not_and]
          exact fun _ h => hq h.symm
        simp [h1, h2]
    · rw [if_neg (by simp [hc]), ih, List.count_cons]
      have h2 : (((c, q) : Nat × Nat) == (n, p)) = false := by
        simp only [beq_eq_false_iff_ne, ne_eq, Prod.mk.injEq, not_and]
        intro h
        exact absurd h hc
      simp [h2]

theorem get_parents_nodup {edges : DAGEdges} (h : edges.Nodup) (n : Nat) :
    (ReverseDAGIndex.get_parents edges n).Nodup := by
  unfold ReverseDAGIndex.get_parents
  refine (h.filter _).map_on ?_
  intro x hx y hy hxy
  have hx1 : x.1 = n := by simpa using (List.mem_filter.mp hx).2
  have hy1 : y.1 = n := by simpa using (List.mem_filter.mp hy).2
  cases x
  cases y
  simp_all

/-! ### Edge-sequence operation lemmas -/

theorem add_ok {edges : DAGEdges} {c p : Nat} (h : (c, p) ∉ edges) :
    ReverseDAGIndex.add edges c p = .ok (edges ++ [(c, p)]) := by
  simp [ReverseDAGIndex.add, h]

theorem remove_ok {edges : DAGEdges} {c p : Nat} (h : (c, p) ∈ edges) :
    ReverseDAGIndex.remove edges c p = .ok (edges.erase (c, p)) := by
  simp [ReverseDAGIndex.remove, h]

theorem add_edge_list_ok {es : List (Nat × Nat)} :
    ∀ {edges : DAGEdges}, (∀ e ∈ es, e ∉ edges) → es.Nodup →
      add_edge_list edges es = (.ok (), edges ++ es) := by
  induction es with
  | nil =>
    intro edges _ _
    simp [add_edge_list]
  | cons e es ih =>
    intro edges h1 h2
    rw [List.nodup_cons] at h2
    have hadd : ReverseDAGIndex.add edges e.1 e.2 = .ok (edges ++ [e]) :=
      add_ok (h1 e (List.mem_cons_self _ _))
    have hrest : ∀ e2 ∈ es, e2 ∉ edges ++ [e] := by
      intro e2 he2
      rw [List.mem_append]
      push_neg
      refine ⟨h1 e2 (List.mem_cons_of_mem _ he2), ?_⟩
      simp only [List.mem_singleton]
      intro hee
      exact h2.1 (hee ▸ he2)
    rw [add_edge_list, hadd]
    show add_edge_list (edges ++ [e]) es = (.ok (), edges ++ e :: es)
    rw [ih hrest h2.2]
    simp

theorem add_edge_list_err {es : List (Nat × Nat)} :
    ∀ {edges : DAGEdges}, (¬es.Nodup ∨ ∃ e ∈ es, e ∈ edges) →
      (add_edge_list edges es).1 = .error .DuplicateEdge := by
  induction es with
  | nil =>
    intro edges h
    rcases h with h | ⟨e, he, _⟩
    · exact absurd List.nodup_nil h
    · simp at he
  | cons e es ih =>
    intro edges h
    by_cases hmem : e ∈ edges
    · have hadd : ReverseDAGIndex.add edges e.1 e.2 = .error .DuplicateEdge := by
        unfold ReverseDAGIndex.add
        rw [if_pos hmem]
      rw [add_edge_list, hadd]
    · have hadd : ReverseDAGIndex.add edges e.1 e.2 = .ok (edges ++ [e]) := add_ok hmem
      rw [add_edge_list, hadd]
      show (add_edge_list (edges ++ [e]) es).1 = .error .DuplicateEdge
      apply ih
      rcases h with hnd | ⟨e2, he2, hmem2⟩
      · rw [List.nodup_cons] at hnd
        by_cases hes : e ∈ es
        · exact Or.inr ⟨e, hes, by simp⟩
        · exact Or.inl fun hn => hnd ⟨hes, hn⟩
      · rcases List.mem_cons.mp he2 with rfl | he3
        · exact absurd hmem2 hmem
        · exact Or.inr ⟨e2, he3, by simp [hmem2]⟩

theorem remove_edge_list_ok {es : List (Nat × Nat)} :
    ∀ {edges : DAGEdges}, (∀ x, es.count x ≤ edges.count x) →
      ∃ out, remove_edge_list edges es = (.ok (), out) ∧
        ∀ x, out.count x = edges.count x - es.count x := by
  induction es with
  | nil =>
    intro edges _
    exact ⟨edges, rfl, by simp⟩
  | cons e es ih =>
    intro edges h
    have he : e ∈ edges := by
      rw [← List.count_pos_iff]
      have := h e
      rw [List.count_cons_self] at this
      omega
    obtain ⟨out, hrun, hcount⟩ := @ih (edges.erase e) (by
      intro x
      rw [List.count_erase]
      have := h x
      rw [List.count_cons] at this
      by_cases hx : x = e
      · simp only [hx, beq_self_eq_true, if_pos] at this ⊢
        omega
      · simp only [beq_eq_false_iff_ne, ne_eq, hx, not_false_eq_true, beq_iff_eq,
          if_neg] at this ⊢
        omega)
    refine ⟨out, ?_, ?_⟩
    · rw [remove_edge_list, remove_ok he]
      show remove_edge_list (edges.erase e) es = (.ok (), out)
      exact hrun
    · intro x
      rw [hcount x, List.count_erase, List.count_cons]
      by_cases hx : x = e
      · simp only [hx, beq_self_eq_true, if_pos]
        omega
      · simp only [beq_eq_false_iff_ne, ne_eq, hx, not_false_eq_true, beq_iff_eq, if_neg]
        omega

theorem replace_input_ok {edges : DAGEdges} {old nw : Nat} (hnd : edges.Nodup)
    (h0 : ReverseDAGIndex.get_parent_count edges nw = 0) :
    ReverseDAGIndex.replace_input edges old nw =
      .ok (edges.filter (fun e => e.1 ≠ old) ++
        (ReverseDAGIndex.get_parents edges old).map (fun p => (nw, p))) := by
  unfold ReverseDAGIndex.replace_input
  rw [if_neg (by simp [h0])]
  have hinj : Function.Injective (fun p => ((nw, p) : Nat × Nat)) := by
    intro a b hab
    simpa using hab
  have hnodup : ((ReverseDAGIndex.get_parents edges old).map (fun p => (nw, p))).Nodup :=
    (get_parents_nodup hnd old).map hinj
  have hfresh : ∀ e ∈ (ReverseDAGIndex.get_parents edges old).map (fun p => (nw, p)),
      e ∉ edges := by
    intro e he hmem
    rcases List.mem_map.mp he with ⟨p, hp, rfl⟩
    exact (get_parent_count_eq_zero_iff edges nw).mp h0 p hmem
  rw [add_edge_list_ok hfresh hnodup]
  show Except.ok ((edges ++
      (ReverseDAGIndex.get_parents edges old).map (fun p => (nw, p))).filter
        (fun e => e.1 ≠ old)) =
    Except.ok (edges.filter (fun e => e.1 ≠ old) ++
      (ReverseDAGIndex.get_parents edges old).map (fun p => (nw, p)))
  congr 1
  rw [List.filter_append]
  congr 1
  by_cases hcase : nw = old
  · rw [hcase, get_parents_eq_nil edges old (hcase ▸ h0)]
    rfl
  · apply List.filter_eq_self.mpr
    intro e he
    rcases List.mem_map.mp he with ⟨p, hp, rfl⟩
    simpa using hcase

/-! ### Node-model lemmas -/

/-- Rewriting every input slot holding `old` to `nw`.  When a node holds
`old` in at most one slot, this is the effect of one successful
`replace_input(old, nw)` call. -/
def substNode (old nw : Nat) : Node → Node
  | .storedTable s => .storedTable s
  | .predicate s i => .predicate s (if i = old then nw else i)
  | .join l r => .join (if l = old then nw else l) (if r = old then nw else r)

theorem substNode_get_inputs (old nw : Nat) (nd : Node) :
    (substNode old nw nd).get_inputs =
      nd.get_inputs.map (fun c => if c = old then nw else c) := by
  cases nd <;> simp [substNode, Node.get_inputs]

theorem substNode_id {old : Nat} (nw : Nat) {nd : Node}
    (h : nd.get_inputs.count old = 0) : substNode old nw nd = nd := by
  rw [List.count_eq_zero] at h
  cases nd with
  | storedTable s => rfl
  | predicate s i =>
    simp only [Node.get_inputs, List.mem_singleton] at h
    have hi : ¬i = old := fun he => h he.symm
    simp [substNode, hi]
  | join l r =>
    simp only [Node.get_inputs, List.mem_cons, List.not_mem_nil, or_false,
      not_or] at h
    have hl : ¬l = old := fun he => h.1 he.symm
    have hr : ¬r = old := fun he => h.2 he.symm
    simp [substNode, hl, hr]

theorem replace_input_ok_node {nd : Node} {old nw : Nat} {nd2 : Node}
    (hok : nd.replace_input old nw = .ok nd2)
    (hle : nd.get_inputs.count old ≤ 1) : nd2 = substNode old nw nd := by
  cases nd with
  | storedTable s => simp [Node.replace_input] at hok
  | predicate s i =>
    by_cases hi : old = i
    · rw [Node.replace_input, if_pos hi] at hok
      injection hok with h2
      simp [← h2, substNode, hi.symm]
    · rw [Node.replace_input, if_neg hi] at hok
      exact absurd hok (by simp)
  | join l r =>
    by_cases hl : old = l
    · rw [Node.replace_input, if_pos hl] at hok
      injection hok with h2
      have hr : ¬r = old := by
        intro hre
        rw [Node.get_inputs, ← hl, hre] at hle
        simp at hle
      simp [← h2, substNode, hl.symm, hr]
    · by_cases hr : old = r
      · rw [Node.replace_input, if_neg hl, if_pos hr] at hok
        injection hok with h2
        have hlo : ¬l = old := fun he => hl he.symm
        simp [← h2, substNode, hlo, hr.symm]
      · rw [Node.replace_input, if_neg hl, if_neg hr] at hok
        exact absurd hok (by simp)

theorem replace_input_ok_of_mem {nd : Node} {old : Nat} (nw : Nat)
    (h : old ∈ nd.get_inputs) : ∃ nd2, nd.replace_input old nw = .ok nd2 := by
  cases nd with
  | storedTable s => simp [Node.get_inputs] at h
  | predicate s i =>
    simp only [Node.get_inputs, List.mem_singleton] at h
    exact ⟨.predicate s nw, by rw [Node.replace_input, if_pos h]⟩
  | join l r =>
    simp only [Node.get_inputs, List.mem_cons, List.not_mem_nil, or_false] at h
    by_cases hl : old = l
    · exact ⟨.join nw r, by rw [Node.replace_input, if_pos hl]⟩
    · have hr : old = r := h.resolve_left hl
      exact ⟨.join l nw, by rw [Node.replace_input, if_neg hl, if_pos hr]⟩

theorem count_map_swap (l : List Nat) (old nw : Nat) (hne : ¬old = nw) (c : Nat) :
    (l.map (fun x => if x = old then nw else x)).count c =
      if c = old then 0
      else if c = nw then l.count nw + l.count old
      else l.count c := by
  rw [List.count_eq_countP, List.countP_map]
  have hno : ¬nw = old := fun he => hne he.symm
  by_cases h1 : c = old
  · rw [if_pos h1]
    apply List.countP_eq_zero.mpr
    intro a _
    by_cases ha : a = old <;>
      simp [Function.comp_apply, ha, h1, hno, hne]
  · rw [if_neg h1]
    by_cases h2 : c = nw
    · rw [if_pos h2]
      subst h2
      induction l with
      | nil => simp
      | cons a as ih =>
        rw [List.countP_cons, List.count_cons, List.count_cons, ih]
        by_cases ha : a = old
        · have ha2 : (a == c) = false := by
            simp only [beq_eq_false_iff_ne, ne_eq]
            rw [ha]
            exact fun he => h1 he.symm
          simp only [Function.comp_apply, ha, if_pos, if_true, ha2, if_false,
            beq_self_eq_true, ite_true, ite_false]
          have hoc : (old == c) = false := by
            simp only [beq_eq_false_iff_ne, ne_eq]
            exact hne
          simp [hoc]
          omega
        · by_cases hac : a = c
          · simp only [Function.comp_apply, if_neg ha, hac, beq_self_eq_true,
              ite_true]
            have hco : (c == old) = false := by
              simp only [beq_eq_false_iff_ne, ne_eq]
              exact h1
            simp [hco, h1]
            omega
          · have ha2 : (a == c) = false := by
              simp only [beq_eq_false_iff_ne, ne_eq]
              exact hac
            have ha3 : (a == old) = false := by
              simp only [beq_eq_false_iff_ne, ne_eq]
              exact ha
            simp [Function.comp_apply, ha, ha2, ha3]
    · rw [if_neg h2, List.count_eq_countP]
      apply List.countP_congr
      intro a _
      have hnc : ¬nw = c := fun he => h2 he.symm
      have hoc : ¬old = c := fun he => h1 he.symm
      by_cases ha : a = old <;>
        simp [Function.comp_apply, ha, hnc, hoc]

/-! ### Rewiring-loop lemma -/

theorem rewire_parents_ok {old nw : Nat} :
    ∀ (ps : List Nat) (heap : List (Nat × Node)),
      (heap.map Prod.fst).Nodup → ps.Nodup →
      (∀ p ∈ ps, ∃ nd, lookupNode heap p = some nd ∧ nd.get_inputs.count old = 1) →
      rewire_parents heap ps old nw =
        .ok (heap.map (fun q => if q.1 ∈ ps then (q.1, substNode old nw q.2) else q)) := by
  intro ps
  induction ps with
  | nil =>
    intro heap _ _ _
    simp [rewire_parents]
  | cons p ps ih =>
    intro heap hk hnd hcond
    rw [List.nodup_cons] at hnd
    obtain ⟨nd, hlook, hcount⟩ := hcond p (List.mem_cons_self _ _)
    obtain ⟨nd2, hok⟩ :=
      @replace_input_ok_of_mem nd old nw
        (List.count_pos_iff.mp (by omega))
    have hnd2 : nd2 = substNode old nw nd := replace_input_ok_node hok (by omega)
    subst hnd2
    have hrih : replace_in_heap heap p old nw =
        .ok (updateHeap heap p (substNode old nw nd)) := by
      simp only [replace_in_heap, hlook, hok]
    rw [rewire_parents, hrih]
    show rewire_parents (updateHeap heap p (substNode old nw nd)) ps old nw = _
    rw [ih (updateHeap heap p (substNode old nw nd))
      (by rw [updateHeap_keys]; exact hk) hnd.2 ?_]
    · congr 1
      unfold updateHeap
      rw [List.map_map]
      apply List.map_congr_left
      intro q hq
      by_cases hqp : q.1 = p
      · have hq2 : nd = q.2 := by
          have h1 := lookupNode_of_mem hk hq
          rw [hqp, hlook] at h1
          exact Option.some.inj h1
        have hnotps : q.1 ∉ ps := by
          rw [hqp]
          exact hnd.1
        have hin : q.1 ∈ p :: ps := by
          rw [hqp]
          exact List.mem_cons_self _ _
        simp only [Function.comp_apply, if_pos hqp, if_pos hin]
        rw [if_neg (by simpa using hnotps), ← hq2]
      · have hmem : (q.1 ∈ p :: ps) ↔ (q.1 ∈ ps) := by
          simp [List.mem_cons, hqp]
        by_cases hqps : q.1 ∈ ps <;>
          simp [Function.comp_apply, hqp, hqps, hmem]
    · intro p2 hp2
      obtain ⟨nd3, hl3, hc3⟩ := hcond p2 (List.mem_cons_of_mem _ hp2)
      refine ⟨nd3, ?_, hc3⟩
      rw [lookupNode_updateHeap, if_neg ?_]
      · exact hl3
      · intro he
        rw [he] at hp2
        exact hnd.1 hp2

/-! ### Well-formedness invariant -/

/-- The number of input slots of the owned live node `p` currently holding
`c` (zero when `p` is not owned). -/
def slotCount (s : LQPState) (c p : Nat) : Nat :=
  if p ∈ s.owned then
    ((lookupNode s.heap p).map (fun nd => nd.get_inputs.count c)).getD 0
  else 0

/-- Well-formedness of a graph state: object identifiers are unique and
below the allocator mark, the ownership map and the live objects agree,
every input slot refers to a live object, the reverse index holds no
duplicate edge, and the index edge multiset is exactly the one derivable
from the owned nodes' input lists. -/
structure WF (s : LQPState) : Prop where
  heap_nodup : (s.heap.map Prod.fst).Nodup
  owned_nodup : s.owned.Nodup
  owned_live : ∀ n, n ∈ s.owned ↔ (lookupNode s.heap n).isSome = true
  heap_lt : ∀ k ∈ s.heap.map Prod.fst, k < s.nextId
  inputs_live : ∀ p nd, lookupNode s.heap p = some nd →
    ∀ c ∈ nd.get_inputs, (lookupNode s.heap c).isSome = true
  edge_bound : ∀ e : Nat × Nat, s.edges.count e ≤ 1
  edge_inv : ∀ c p, s.edges.count (c, p) = slotCount s c p

theorem nodup_of_count_le_one {l : List (Nat × Nat)}
    (h : ∀ e, l.count e ≤ 1) : l.Nodup := by
  induction l with
  | nil => exact List.nodup_nil
  | cons a as ih =>
    rw [List.nodup_cons]
    constructor
    · rw [← List.count_eq_zero]
      have := h a
      rw [List.count_cons_self] at this
      omega
    · exact ih fun e => le_trans (List.count_le_count_cons e a as) (h e)

theorem WF.edges_nodup {s : LQPState} (h : WF s) : s.edges.Nodup :=
  nodup_of_count_le_one h.edge_bound

theorem WF.live_lt {s : LQPState} (h : WF s) {n : Nat}
    (hl : (lookupNode s.heap n).isSome = true) : n < s.nextId :=
  h.heap_lt n ((lookupNode_isSome_iff s.heap n).mp hl)

theorem WF.owned_lt {s : LQPState} (h : WF s) {n : Nat} (hn : n ∈ s.owned) :
    n < s.nextId :=
  h.live_lt ((h.owned_live n).mp hn)

theorem WF.edge_mem_inv {s : LQPState} (h : WF s) {c p : Nat}
    (he : (c, p) ∈ s.edges) :
    p ∈ s.owned ∧ ∃ nd, lookupNode s.heap p = some nd ∧ c ∈ nd.get_inputs := by
  have hc := h.edge_inv c p
  rw [← List.count_pos_iff] at he
  unfold slotCount at hc
  by_cases hp : p ∈ s.owned
  · rw [if_pos hp] at hc
    refine ⟨hp, ?_⟩
    cases hlook : lookupNode s.heap p with
    | none =>
      rw [hlook] at hc
      simp at hc
      omega
    | some nd =>
      rw [hlook] at hc
      simp only [Option.map_some', Option.getD_some] at hc
      refine ⟨nd, rfl, ?_⟩
      rw [← List.count_pos_iff]
      omega
  · rw [if_neg hp] at hc
    omega

theorem WF.edge_mem_lt {s : LQPState} (h : WF s) {c p : Nat}
    (he : (c, p) ∈ s.edges) : c < s.nextId ∧ p < s.nextId := by
  obtain ⟨hp, nd, hlook, hcmem⟩ := h.edge_mem_inv he
  exact ⟨h.live_lt (h.inputs_live p nd hlook c hcmem), h.owned_lt hp⟩

theorem WF.fresh_edge_count {s : LQPState} (h : WF s) {c p : Nat}
    (hcp : s.nextId ≤ c ∨ s.nextId ≤ p) : s.edges.count (c, p) = 0 := by
  rw [List.count_eq_zero]
  intro hmem
  have := h.edge_mem_lt hmem
  omega

theorem WF.fresh_parent_count {s : LQPState} (h : WF s) {n : Nat}
    (hn : s.nextId ≤ n) : ReverseDAGIndex.get_parent_count s.edges n = 0 := by
  rw [get_parent_count_eq_zero_iff]
  intro p hmem
  have := h.edge_mem_lt hmem
  omega

theorem WF.fresh_ref_count {s : LQPState} (h : WF s) {n : Nat}
    (hn : s.nextId ≤ n) : s.ref_count n = 0 := by
  unfold LQPState.ref_count ref_count_heap
  apply List.sum_eq_zero
  intro x hx
  rcases List.mem_map.mp hx with ⟨q, hq, rfl⟩
  rw [List.count_eq_zero]
  intro hmem
  have hlive := h.inputs_live q.1 q.2 (lookupNode_of_mem h.heap_nodup hq) n hmem
  have := h.live_lt hlive
  omega

/-! ### The canonical edge list -/

/-- The edge multiset derivable by scanning every owned live node's input
list: one (input, owner) edge per input slot. -/
def canonFrom (heap : List (Nat × Node)) (owned : List Nat) : DAGEdges :=
  (heap.map (fun q =>
    if q.1 ∈ owned then q.2.get_inputs.map (fun c => (c, q.1)) else [])).flatten

theorem count_canonFrom {heap : List (Nat × Node)} (owned : List Nat)
    (hk : (heap.map Prod.fst).Nodup) (c p : Nat) :
    (canonFrom heap owned).count (c, p) =
      (if p ∈ owned then
        ((lookupNode heap p).map (fun nd => nd.get_inputs.count c)).getD 0
      else 0) := by
  induction heap with
  | nil => simp [canonFrom, lookupNode]
  | cons q qs ih =>
    rw [List.map_cons, List.nodup_cons] at hk
    rw [canonFrom, List.map_cons, List.flatten_cons, List.count_append]
    rw [show ((List.map (fun q => if q.1 ∈ owned then
        List.map (fun c => (c, q.1)) q.2.get_inputs else []) qs).flatten) =
      canonFrom qs owned from rfl, ih hk.2]
    by_cases hqp : q.1 = p
    · have hlook : lookupNode (q :: qs) p = some q.2 := by
        rw [lookupNode, if_pos hqp]
      have hnop : lookupNode qs p = none := by
        rw [lookupNode_eq_none_iff]
        rw [hqp] at hk
        exact hk.1
      rw [hlook, hnop]
      by_cases hq : q.1 ∈ owned
      · have hps : p ∈ owned := hqp ▸ hq
        rw [if_pos hq, if_pos hps, if_pos hps]
        have hbl : (List.map (fun c => (c, q.1)) q.2.get_inputs).count (c, p) =
            q.2.get_inputs.count c := by
          rw [hqp]
          induction q.2.get_inputs with
          | nil => simp
          | cons a as iha =>
            rw [List.map_cons, List.count_cons, List.count_cons, iha]
            by_cases hac : a = c
            · simp [hac]
            · have h1 : (((a, p) : Nat × Nat) == (c, p)) = false := by
                simp only [beq_eq_false_iff_ne, ne_eq, Prod.mk.injEq, not_and]
                intro h
                exact absurd h hac
              have h2 : (a == c) = false := by
                simp only [beq_eq_false_iff_ne, ne_eq]
                exact hac
              rw [h1, h2]
        rw [hbl]
        simp
      · have hps : p ∉ owned := fun hp => hq (by rw [hqp]; exact hp)
        rw [if_neg hq, if_neg hps, if_neg hps]
        rfl
    · have hlook : lookupNode (q :: qs) p = lookupNode qs p := by
        rw [lookupNode, if_neg hqp]
      rw [hlook]
      have hbl : (if q.1 ∈ owned then
          List.map (fun c => (c, q.1)) q.2.get_inputs else []).count (c, p) = 0 := by
        by_cases hq : q.1 ∈ owned
        · rw [if_pos hq, List.count_eq_zero]
          intro hmem
          rcases List.mem_map.mp hmem with ⟨a, _, hpair⟩
          exact hqp (congrArg Prod.snd hpair)
        · rw [if_neg hq]
          rfl
      rw [hbl]
      omega

theorem count_decEq_eq_count (l : List (Nat × Nat)) (a : Nat × Nat) :
    @List.count (Nat × Nat) instBEqOfDecidableEq a l = List.count a l := by
  rw [@List.count_eq_countP _ instBEqOfDecidableEq, List.count_eq_countP]
  apply List.countP_congr
  intro x _
  rw [show (@BEq.beq _ instBEqOfDecidableEq x a) = decide (x = a) from rfl]
  simp

theorem WF.edges_perm_canon {s : LQPState} (h : WF s) :
    s.edges.Perm (canonFrom s.heap s.owned) := by
  rw [List.perm_iff_count]
  intro e
  rw [count_decEq_eq_count, count_decEq_eq_count]
  rcases e with ⟨c, p⟩
  rw [h.edge_inv c p, count_canonFrom s.owned h.heap_nodup c p]
  rfl

theorem countP_child_canonFrom (n : Nat) :
    ∀ (heap : List (Nat × Node)) (owned : List Nat),
      (∀ q ∈ heap, q.1 ∈ owned) →
      (canonFrom heap owned).countP (fun e => e.1 = n) =
        (heap.map (fun q => q.2.get_inputs.count n)).sum := by
  intro heap
  induction heap with
  | nil =>
    intro owned _
    simp [canonFrom]
  | cons q qs ih =>
    intro owned hall
    rw [canonFrom, List.map_cons, List.flatten_cons, List.countP_append,
      List.map_cons, List.sum_cons]
    rw [show ((List.map (fun q => if q.1 ∈ owned then
        List.map (fun c => (c, q.1)) q.2.get_inputs else []) qs).flatten) =
      canonFrom qs owned from rfl]
    rw [ih owned (fun q2 hq2 => hall q2 (List.mem_cons_of_mem _ hq2))]
    have hblock : (if q.1 ∈ owned then
        q.2.get_inputs.map (fun c => (c, q.1)) else []).countP
          (fun e => e.1 = n) = q.2.get_inputs.count n := by
      rw [if_pos (hall q (List.mem_cons_self _ _)), List.countP_map,
        List.count_eq_countP]
      apply List.countP_congr
      intro a _
      simp [Function.comp_apply]
    rw [hblock]

theorem countP_owned_canonFrom (n : Nat) :
    ∀ (heap : List (Nat × Node)) (owned : List Nat),
      (∀ q ∈ heap, q.1 ∈ owned → q.2.get_inputs.count n ≤ 1) →
      (canonFrom heap owned).countP (fun e => e.1 = n) =
        heap.countP (fun q => q.1 ∈ owned ∧ n ∈ q.2.get_inputs) := by
  intro heap
  induction heap with
  | nil =>
    intro owned _
    simp [canonFrom]
  | cons q qs ih =>
    intro owned hall
    rw [canonFrom, List.map_cons, List.flatten_cons, List.countP_append]
    simp only [List.countP_cons]
    rw [show ((List.map (fun q => if q.1 ∈ owned then
        List.map (fun c => (c, q.1)) q.2.get_inputs else []) qs).flatten) =
      canonFrom qs owned from rfl]
    rw [ih owned (fun q2 hq2 => hall q2 (List.mem_cons_of_mem _ hq2))]
    have hblock : (if q.1 ∈ owned then
        q.2.get_inputs.map (fun c => (c, q.1)) else []).countP
          (fun e => e.1 = n) =
        if decide (q.1 ∈ owned ∧ n ∈ q.2.get_inputs) = true then 1 else 0 := by
      by_cases hq : q.1 ∈ owned
      · rw [if_pos hq, List.countP_map]
        have hc : List.countP ((fun e => decide (e.1 = n)) ∘ fun c => (c, q.1))
            q.2.get_inputs = q.2.get_inputs.count n := by
          rw [List.count_eq_countP]
          apply List.countP_congr
          intro a _
          simp [Function.comp_apply]
        rw [hc]
        have hb := hall q (List.mem_cons_self _ _) hq
        by_cases hm : n ∈ q.2.get_inputs
        · have h1 : 0 < q.2.get_inputs.count n := List.count_pos_iff.mpr hm
          have he : (decide (q.1 ∈ owned ∧ n ∈ q.2.get_inputs)) = true := by
            simp [hq, hm]
          rw [he, if_pos rfl]
          omega
        · have h0 : q.2.get_inputs.count n = 0 := List.count_eq_zero.mpr hm
          have he : (decide (q.1 ∈ owned ∧ n ∈ q.2.get_inputs)) = false := by
            simp [hm]
          rw [he]
          simp [h0]
      · rw [if_neg hq]
        have he : (decide (q.1 ∈ owned ∧ n ∈ q.2.get_inputs)) = false := by
          simp [hq]
        rw [he]
        simp
    rw [hblock]
    omega

/-- The number of currently-owned nodes whose input list contains `n`. -/
def numOwnedParents (s : LQPState) (n : Nat) : Nat :=
  s.heap.countP (fun q => q.1 ∈ s.owned ∧ n ∈ q.2.get_inputs)

theorem WF.heap_mem_owned {s : LQPState} (h : WF s) {q : Nat × Node}
    (hq : q ∈ s.heap) : q.1 ∈ s.owned := by
  rw [h.owned_live, lookupNode_isSome_iff]
  exact List.mem_map_of_mem Prod.fst hq

theorem WF.slot_bound {s : LQPState} (h : WF s) {q : Nat × Node}
    (hq : q ∈ s.heap) (n : Nat) : q.2.get_inputs.count n ≤ 1 := by
  have hlook := lookupNode_of_mem h.heap_nodup hq
  have howned := h.heap_mem_owned hq
  have hinv := h.edge_inv n q.1
  unfold slotCount at hinv
  rw [if_pos howned, hlook] at hinv
  simp only [Option.map_some', Option.getD_some] at hinv
  have hb := h.edge_bound (n, q.1)
  omega

/-- Under well-formedness, a node's recorded parent count is the number of
owned nodes whose input list contains it. -/
theorem WF.parent_count_eq_numOwnedParents {s : LQPState} (h : WF s) (n : Nat) :
    ReverseDAGIndex.get_parent_count s.edges n = numOwnedParents s n := by
  rw [get_parent_count_eq_countP, h.edges_perm_canon.countP_eq]
  exact countP_owned_canonFrom n s.heap s.owned
    (fun q hq _ => h.slot_bound hq n)

/-- Under well-formedness the borrow count of a node equals its recorded
parent count: the heap's slots and the index agree. -/
theorem WF.ref_count_eq_parent_count {s : LQPState} (h : WF s) (n : Nat) :
    s.ref_count n = ReverseDAGIndex.get_parent_count s.edges n := by
  rw [get_parent_count_eq_countP, h.edges_perm_canon.countP_eq]
  unfold LQPState.ref_count ref_count_heap
  exact (countP_child_canonFrom n s.heap s.owned
    (fun q hq => h.heap_mem_owned hq)).symm

/-! ### make_node characterization and preservation -/

theorem count_le_one_of_nodup {α} [BEq α] [LawfulBEq α] {l : List α}
    (h : l.Nodup) (a : α) : l.count a ≤ 1 := by
  induction l with
  | nil => simp
  | cons b bs ih =>
    rw [List.nodup_cons] at h
    rw [List.count_cons]
    by_cases hab : a = b
    · have h0 : bs.count a = 0 := by
        rw [List.count_eq_zero, hab]
        exact h.1
      have hba : (b == a) = true := by simp [hab.symm]
      rw [hba, h0]
      simp
    · have hb : (b == a) = false := by
        simp only [beq_eq_false_iff_ne, ne_eq]
        exact fun he => hab he.symm
      rw [hb]
      simpa using ih h.2

theorem count_map_pair_right (cs : List Nat) (w c p : Nat) :
    (cs.map (fun x => (x, w))).count (c, p) = if p = w then cs.count c else 0 := by
  rw [List.count_eq_countP, List.countP_map]
  by_cases hp : p = w
  · rw [if_pos hp, List.count_eq_countP]
    apply List.countP_congr
    intro x _
    simp [Function.comp_apply, Prod.ext_iff, hp]
  · rw [if_neg hp]
    apply List.countP_eq_zero.mpr
    intro x _
    simp only [Function.comp_apply, beq_iff_eq, Prod.mk.injEq, not_and]
    intro _
    exact fun hw => hp hw.symm

theorem count_map_pair_left (ps : List Nat) (w c p : Nat) :
    (ps.map (fun x => (w, x))).count (c, p) = if c = w then ps.count p else 0 := by
  rw [List.count_eq_countP, List.countP_map]
  by_cases hc : c = w
  · rw [if_pos hc, List.count_eq_countP]
    apply List.countP_congr
    intro x _
    simp [Function.comp_apply, Prod.ext_iff, hc]
  · rw [if_neg hc]
    apply List.countP_eq_zero.mpr
    intro x _
    simp only [Function.comp_apply, beq_iff_eq, Prod.mk.injEq, not_and]
    intro hw
    exact absurd hw.symm hc

theorem lookupNode_fresh {s : LQPState} (h : WF s) {x : Nat}
    (hx : s.nextId ≤ x) : lookupNode s.heap x = none := by
  rw [lookupNode_eq_none_iff]
  intro hmem
  have := h.heap_lt x hmem
  omega

theorem add_edge_list_ok_inv {es : List (Nat × Nat)} :
    ∀ {edges out : DAGEdges}, add_edge_list edges es = (.ok (), out) →
      out = edges ++ es ∧ es.Nodup ∧ ∀ e ∈ es, e ∉ edges := by
  induction es with
  | nil =>
    intro edges out h
    rw [add_edge_list] at h
    injection h with _ h2
    exact ⟨by rw [← h2]; simp, List.nodup_nil, by simp⟩
  | cons e es ih =>
    intro edges out h
    by_cases hmem : e ∈ edges
    · have hadd : ReverseDAGIndex.add edges e.1 e.2 = .error .DuplicateEdge := by
        unfold ReverseDAGIndex.add
        rw [if_pos hmem]
      rw [add_edge_list, hadd] at h
      exact absurd h (by simp)
    · have hadd : ReverseDAGIndex.add edges e.1 e.2 = .ok (edges ++ [e]) :=
        add_ok hmem
      simp only [add_edge_list, hadd] at h
      obtain ⟨hout, hnd, hfr⟩ := ih h
      refine ⟨by rw [hout]; simp, ?_, ?_⟩
      · rw [List.nodup_cons]
        exact ⟨fun hees => (hfr e hees) (by simp), hnd⟩
      · intro e2 he2
        rcases List.mem_cons.mp he2 with rfl | he3
        · exact hmem
        · intro hc
          exact hfr e2 he3 (by simp [hc])

/-- The explicit result of a successful `make_node`. -/
def makeResult (s : LQPState) (nd : Node) : LQPState :=
  { s with
     heap := s.heap ++ [(s.nextId, nd)],
     owned := s.owned ++ [s.nextId],
     edges := s.edges ++ nd.get_inputs.map (fun c => (c, s.nextId)),
     nextId := s.nextId + 1 }

theorem make_node_ok_inv {s : LQPState} {nd : Node} {s2 : LQPState} {i : Nat}
    (h : LQP.make_node s nd = (.ok i, s2)) :
    i = s.nextId ∧ s2 = makeResult s nd ∧ nd.get_inputs.Nodup ∧
      (∀ c ∈ nd.get_inputs, (c, s.nextId) ∉ s.edges) := by
  unfold LQP.make_node at h
  rcases hadd : add_edge_list s.edges
    (nd.get_inputs.map (fun c => (c, s.nextId))) with ⟨r, e2⟩
  cases r with
  | error err =>
    simp only [hadd] at h
    exact absurd (congrArg Prod.fst h) (by simp)
  | ok u =>
    cases u
    simp only [hadd, Prod.mk.injEq, Except.ok.injEq] at h
    obtain ⟨hout, hmapnd, hfr⟩ := add_edge_list_ok_inv hadd
    refine ⟨h.1.symm, ?_, ?_, ?_⟩
    · rw [← h.2, makeResult, hout]
    · exact (List.Nodup.of_map _) hmapnd
    · intro c hc
      exact hfr (c, s.nextId) (List.mem_map_of_mem _ hc)

theorem make_node_ok {s : LQPState} {nd : Node} (hnd : nd.get_inputs.Nodup)
    (hfr : ∀ c ∈ nd.get_inputs, (c, s.nextId) ∉ s.edges) :
    LQP.make_node s nd = (.ok s.nextId, makeResult s nd) := by
  unfold LQP.make_node
  have hinj : Function.Injective (fun c => ((c, s.nextId) : Nat × Nat)) := by
    intro a b hab
    simpa using hab
  have hfr2 : ∀ e ∈ nd.get_inputs.map (fun c => (c, s.nextId)), e ∉ s.edges := by
    intro e he
    rcases List.mem_map.mp he with ⟨c, hc, rfl⟩
    exact hfr c hc
  rw [add_edge_list_ok hfr2 (hnd.map hinj)]
  rfl

theorem WF.make_node_wf {s : LQPState} {nd : Node} {s2 : LQPState} {i : Nat}
    (h : WF s) (hin : ∀ c ∈ nd.get_inputs, (lookupNode s.heap c).isSome = true)
    (hok : LQP.make_node s nd = (.ok i, s2)) : WF s2 := by
  obtain ⟨hi, hs2, hnd, hfr⟩ := make_node_ok_inv hok
  subst hi
  subst hs2
  have hwfresh : lookupNode s.heap s.nextId = none := lookupNode_fresh h le_rfl
  have hlook2 : ∀ x, lookupNode (makeResult s nd).heap x =
      if x = s.nextId then some nd else lookupNode s.heap x := by
    intro x
    rw [makeResult, lookupNode_append]
    by_cases hx : x = s.nextId
    · rw [hx, hwfresh]
      simp [lookupNode]
    · cases hl : lookupNode s.heap x with
      | none =>
        have hxx : ¬s.nextId = x := fun he => hx he.symm
        simp [lookupNode, hx, hxx]
      | some v => simp [hx]
  constructor
  case heap_nodup =>
    rw [makeResult, List.map_append, List.nodup_append]
    refine ⟨h.heap_nodup, by simp, ?_⟩
    intro k hk hk2
    simp only [List.map_cons, List.map_nil, List.mem_singleton] at hk2
    have := h.heap_lt k hk
    omega
  case owned_nodup =>
    rw [makeResult, List.nodup_append]
    refine ⟨h.owned_nodup, by simp, ?_⟩
    intro k hk hk2
    simp only [List.mem_singleton] at hk2
    have := h.owned_lt hk
    omega
  case owned_live =>
    intro n
    rw [makeResult, List.mem_append, List.mem_singleton]
    show _ ↔ (lookupNode (makeResult s nd).heap n).isSome = true
    rw [hlook2 n]
    by_cases hn : n = s.nextId
    · simp [hn]
    · simp only [hn, or_false, if_neg hn]
      exact h.owned_live n
  case heap_lt =>
    intro k hk
    rw [makeResult] at hk
    simp only [List.map_append, List.mem_append, List.map_cons, List.map_nil,
      List.mem_singleton] at hk
    show k < s.nextId + 1
    rcases hk with hk | rfl
    · have := h.heap_lt k hk
      omega
    · omega
  case inputs_live =>
    intro p nd' hlookp c hc
    rw [hlook2] at hlookp
    rw [hlook2]
    have hcs : (lookupNode s.heap c).isSome = true := by
      by_cases hp : p = s.nextId
      · rw [if_pos hp] at hlookp
        injection hlookp with hnd'
        exact hin c (hnd' ▸ hc)
      · rw [if_neg hp] at hlookp
        exact h.inputs_live p nd' hlookp c hc
    by_cases hcn : c = s.nextId
    · simp [hcn]
    · rw [if_neg hcn]
      exact hcs
  case edge_bound =>
    intro e
    rcases e with ⟨c, p⟩
    rw [makeResult]
    show (s.edges ++ nd.get_inputs.map (fun c => (c, s.nextId))).count (c, p) ≤ 1
    rw [List.count_append, count_map_pair_right]
    by_cases hp : p = s.nextId
    · rw [if_pos hp]
      have h0 : s.edges.count (c, p) = 0 := by
        apply h.fresh_edge_count
        omega
      have h1 := count_le_one_of_nodup hnd c
      omega
    · rw [if_neg hp]
      have := h.edge_bound (c, p)
      omega
  case edge_inv =>
    intro c p
    rw [makeResult]
    show (s.edges ++ nd.get_inputs.map (fun c => (c, s.nextId))).count (c, p) =
      slotCount (makeResult s nd) c p
    rw [List.count_append, count_map_pair_right]
    unfold slotCount
    rw [hlook2 p]
    by_cases hp : p = s.nextId
    · have hmem : p ∈ (makeResult s nd).owned := by
        show p ∈ s.owned ++ [s.nextId]
        simp [hp]
      rw [if_pos hp, if_pos hmem, if_pos hp]
      have h0 : s.edges.count (c, p) = 0 := h.fresh_edge_count (Or.inr (by omega))
      rw [h0]
      simp
    · have hmem_iff : (p ∈ (makeResult s nd).owned) ↔ p ∈ s.owned := by
        show p ∈ s.owned ++ [s.nextId] ↔ _
        simp [hp]
      rw [if_neg hp]
      by_cases hpo : p ∈ s.owned
      · rw [if_pos (hmem_iff.mpr hpo), if_neg hp]
        have hei := h.edge_inv c p
        unfold slotCount at hei
        rw [if_pos hpo] at hei
        omega
      · rw [if_neg (fun hm => hpo (hmem_iff.mp hm))]
        have hei := h.edge_inv c p
        unfold slotCount at hei
        rw [if_neg hpo] at hei
        omega

/-! ### remove_node characterization and preservation -/

theorem WF.slot_eq {s : LQPState} (h : WF s) {n : Nat} {nd : Node}
    (hlook : lookupNode s.heap n = some nd) (hn : n ∈ s.owned) (c : Nat) :
    s.edges.count (c, n) = nd.get_inputs.count c := by
  have := h.edge_inv c n
  unfold slotCount at this
  rw [if_pos hn, hlook] at this
  simpa using this

theorem remove_node_ok {s : LQPState} {n : Nat} {nd : Node} (h : WF s)
    (hlook : lookupNode s.heap n = some nd) (hn : n ∈ s.owned)
    (href : s.ref_count n = 0)
    (hpar : ReverseDAGIndex.get_parent_count s.edges n = 0) :
    ∃ e2, LQP.remove_node s n =
      (.ok (), { s with
                  heap := s.heap.filter (fun q => q.1 ≠ n),
                  owned := s.owned.filter (fun m => m ≠ n),
                  edges := e2 }) ∧
      ∀ x : Nat × Nat, e2.count x =
        s.edges.count x - (nd.get_inputs.map (fun c => (c, n))).count x := by
  have hle : ∀ x : Nat × Nat,
      (nd.get_inputs.map (fun c => (c, n))).count x ≤ s.edges.count x := by
    intro x
    rcases x with ⟨c, p⟩
    rw [count_map_pair_right]
    by_cases hp : p = n
    · rw [if_pos hp, hp, h.slot_eq hlook hn c]
    · rw [if_neg hp]
      omega
  obtain ⟨out, hrun, hcount⟩ := remove_edge_list_ok hle
  refine ⟨out, ?_, hcount⟩
  simp only [LQP.remove_node, hlook]
  rw [if_neg (by omega), if_neg (by omega)]
  simp only [hrun]
  rw [if_pos hn]

theorem WF.remove_node_wf {s : LQPState} {n : Nat} {s2 : LQPState}
    (h : WF s) (hok : LQP.remove_node s n = (.ok (), s2)) : WF s2 := by
  cases hlook : lookupNode s.heap n with
  | none =>
    simp only [LQP.remove_node, hlook] at hok
    exact absurd (congrArg Prod.fst hok) (by simp)
  | some nd =>
    simp only [LQP.remove_node, hlook] at hok
    by_cases href : s.ref_count n ≠ 0
    · rw [if_pos href] at hok
      exact absurd (congrArg Prod.fst hok) (by simp)
    rw [if_neg href] at hok
    by_cases hpar : ReverseDAGIndex.get_parent_count s.edges n ≠ 0
    · rw [if_pos hpar] at hok
      exact absurd (congrArg Prod.fst hok) (by simp)
    rw [if_neg hpar] at hok
    push_neg at href hpar
    by_cases hn : n ∈ s.owned
    case neg =>
      cases hrun : remove_edge_list s.edges (nd.get_inputs.map (fun c => (c, n))) with
      | mk r e2 =>
        rw [hrun] at hok
        cases r with
        | error err => exact absurd (congrArg Prod.fst hok) (by simp)
        | ok u =>
          exact absurd (congrArg Prod.fst hok) (by simp [hn])
    case pos =>
    obtain ⟨e2, hrem, hcount⟩ := remove_node_ok h hlook hn href hpar
    simp only [LQP.remove_node, hlook] at hrem
    rw [if_neg (by omega), if_neg (by omega)] at hrem
    cases hrun : remove_edge_list s.edges (nd.get_inputs.map (fun c => (c, n))) with
    | mk r out =>
      rw [hrun] at hok hrem
      cases r with
      | error err => exact absurd (congrArg Prod.fst hok) (by simp)
      | ok u =>
        simp only [if_pos hn] at hok hrem
        have hout : out = e2 := by
          have := congrArg (fun z => z.2.edges) hrem
          simpa using this
        subst hout
        have hs2 : s2 = { s with
            heap := s.heap.filter (fun q => q.1 ≠ n),
            owned := s.owned.filter (fun m => m ≠ n),
            edges := out } := by
          have := congrArg Prod.snd hok
          simpa using this.symm
        subst hs2
        have hnmem : n ∉ nd.get_inputs := by
          intro hmem
          have hc := h.slot_eq hlook hn n
          have hz : s.edges.count (n, n) = 0 := by
            rw [List.count_eq_zero]
            intro hin
            exact ((get_parent_count_eq_zero_iff s.edges n).mp hpar n) hin
          have := List.count_pos_iff.mpr hmem
          omega
        constructor
        case heap_nodup =>
          have hsub : List.Sublist
              ((s.heap.filter (fun q => q.1 ≠ n)).map Prod.fst)
              (s.heap.map Prod.fst) :=
            (List.filter_sublist _).map Prod.fst
          exact h.heap_nodup.sublist hsub
        case owned_nodup => exact h.owned_nodup.filter _
        case owned_live =>
          intro x
          show _ ↔ (lookupNode (s.heap.filter (fun q => q.1 ≠ n)) x).isSome = true
          rw [lookupNode_filter_ne]
          by_cases hx : x = n
          · rw [if_pos hx]
            simp only [Option.isSome_none, Bool.false_eq_true, iff_false]
            intro hmem
            rw [hx] at hmem
            exact absurd (List.mem_filter.mp hmem).2 (by simp)
          · rw [if_neg hx]
            rw [List.mem_filter]
            have : (decide (x ≠ n)) = true := by simp [hx]
            rw [this]
            simp only [and_true]
            exact h.owned_live x
        case heap_lt =>
          intro k hk
          apply h.heap_lt
          rcases List.mem_map.mp hk with ⟨q, hq, rfl⟩
          exact List.mem_map_of_mem Prod.fst (List.mem_of_mem_filter hq)
        case inputs_live =>
          intro p nd' hlookp c hc
          rw [lookupNode_filter_ne] at hlookp
          by_cases hp : p = n
          · rw [if_pos hp] at hlookp
            exact absurd hlookp (by simp)
          · rw [if_neg hp] at hlookp
            have hlc := h.inputs_live p nd' hlookp c hc
            have hpo : p ∈ s.owned := (h.owned_live p).mpr (by rw [hlookp]; rfl)
            have hcn : ¬c = n := by
              intro hcn
              have hsl := h.slot_eq hlookp hpo n
              have hz : s.edges.count (n, p) = 0 := by
                rw [List.count_eq_zero]
                intro hin
                exact ((get_parent_count_eq_zero_iff s.edges n).mp hpar p) hin
              have := List.count_pos_iff.mpr (hcn ▸ hc)
              omega
            rw [lookupNode_filter_ne, if_neg hcn]
            exact hlc
        case edge_bound =>
          intro e
          show List.count e out ≤ 1
          have h1 := hcount e
          have h2 := h.edge_bound e
          omega
        case edge_inv =>
          intro c p
          show List.count (c, p) out = slotCount { s with
              heap := s.heap.filter (fun q => q.1 ≠ n),
              owned := s.owned.filter (fun m => m ≠ n),
              edges := out } c p
          rw [hcount (c, p), count_map_pair_right]
          unfold slotCount
          by_cases hp : p = n
          · rw [if_pos hp]
            have hnm : p ∉ (s.owned.filter (fun m => m ≠ n)) := by
              intro hmem
              rw [hp] at hmem
              exact absurd (List.mem_filter.mp hmem).2 (by simp)
            rw [if_neg hnm, hp, h.slot_eq hlook hn c]
            omega
          · rw [if_neg hp]
            have hmem_iff : p ∈ s.owned.filter (fun m => m ≠ n) ↔ p ∈ s.owned := by
              rw [List.mem_filter]
              have : (decide (p ≠ n)) = true := by simp [hp]
              rw [this]
              simp
            have hei := h.edge_inv c p
            unfold slotCount at hei
            by_cases hpo : p ∈ s.owned
            · rw [if_pos (hmem_iff.mpr hpo)]
              rw [if_pos hpo] at hei
              show _ = ((lookupNode (s.heap.filter (fun q => q.1 ≠ n)) p).map
                (fun nd => nd.get_inputs.count c)).getD 0
              rw [lookupNode_filter_ne, if_neg hp]
              omega
            · rw [if_neg (fun hm => hpo (hmem_iff.mp hm))]
              rw [if_neg hpo] at hei
              omega

/-! ### set_root preservation -/

theorem WF.set_root_wf {s : LQPState} (h : WF s) (n : Nat) :
    WF (LQP.set_root s n) :=
  ⟨h.heap_nodup, h.owned_nodup, h.owned_live, h.heap_lt, h.inputs_live,
    h.edge_bound, h.edge_inv⟩

/-! ### wrap_node_with characterization -/

theorem lookupNode_append_some {h1 h2 : List (Nat × Node)} {x : Nat} {nd : Node}
    (hl : lookupNode h1 x = some nd) : lookupNode (h1 ++ h2) x = some nd := by
  rw [lookupNode_append, hl]

theorem count_singleton_pair (a b c p : Nat) :
    List.count (c, p) [(a, b)] = if c = a ∧ p = b then 1 else 0 := by
  by_cases hca : c = a
  · by_cases hpb : p = b
    · have : (((a, b) : Nat × Nat) == (c, p)) = true := by simp [hca, hpb]
      simp [List.count_cons, this, hca, hpb]
    · have : (((a, b) : Nat × Nat) == (c, p)) = false := by
        simp only [beq_eq_false_iff_ne, ne_eq, Prod.mk.injEq, not_and]
        intro _ hb
        exact absurd hb.symm hpb
      simp [List.count_cons, this, hpb]
  · have : (((a, b) : Nat × Nat) == (c, p)) = false := by
      simp only [beq_eq_false_iff_ne, ne_eq, Prod.mk.injEq, not_and]
      intro ha
      exact absurd ha.symm hca
    simp [List.count_cons, this, hca]

/-- The explicit result of a successful `wrap_node_with`: every slot that
held `n` now holds the fresh wrapper, the wrapper owns one slot holding
`n`, and the index mirrors this. -/
def wrapResult (s : LQPState) (n : Nat) (pred : String) : LQPState :=
  { s with
     heap := (s.heap.map (fun q => (q.1, substNode n s.nextId q.2))) ++
       [(s.nextId, .predicate pred n)],
     owned := s.owned ++ [s.nextId],
     edges := s.edges.filter (fun e => e.1 ≠ n) ++
       (ReverseDAGIndex.get_parents s.edges n).map (fun p => (s.nextId, p)) ++
       [(n, s.nextId)],
     nextId := s.nextId + 1 }

theorem parents_lt {s : LQPState} (h : WF s) {n p : Nat}
    (hp : p ∈ ReverseDAGIndex.get_parents s.edges n) : p < s.nextId := by
  have := h.edge_mem_lt (mem_get_parents.mp hp)
  omega

theorem parent_slot_one {s : LQPState} (h : WF s) {n p : Nat}
    (hp : p ∈ ReverseDAGIndex.get_parents s.edges n) :
    ∃ nd, lookupNode s.heap p = some nd ∧ nd.get_inputs.count n = 1 := by
  have hmem := mem_get_parents.mp hp
  obtain ⟨hpo, nd, hlook, hnmem⟩ := h.edge_mem_inv hmem
  refine ⟨nd, hlook, ?_⟩
  have h1 := h.slot_eq hlook hpo n
  have h2 := h.edge_bound (n, p)
  have h3 := List.count_pos_iff.mpr hmem
  omega

theorem wrap_node_with_ok {s : LQPState} {n : Nat} (h : WF s) (hn : n ∈ s.owned)
    (pred : String) :
    LQP.wrap_node_with s n pred = .ok (wrapResult s n pred, s.nextId) := by
  have hnlt : n < s.nextId := h.owned_lt hn
  have hnw : ¬n = s.nextId := by omega
  have hnmem : (n, s.nextId) ∉ s.edges := by
    rw [← List.count_eq_zero]
    exact h.fresh_edge_count (Or.inr le_rfl)
  -- Step 1: make_node creates the wrapper.
  have hfr : ∀ c ∈ (Node.predicate pred n).get_inputs, (c, s.nextId) ∉ s.edges := by
    intro c hc
    simp only [Node.get_inputs, List.mem_singleton] at hc
    rw [hc]
    exact hnmem
  have hmk := @make_node_ok s (.predicate pred n)
    (by simp [Node.get_inputs]) hfr
  -- Abbreviations for the intermediate state.
  have hs1heap : (makeResult s (Node.predicate pred n)).heap =
      s.heap ++ [(s.nextId, Node.predicate pred n)] := rfl
  have hs1edges : (makeResult s (Node.predicate pred n)).edges =
      s.edges ++ [(n, s.nextId)] := rfl
  -- Step 2: the parent list of n after make_node.
  have hparents : ReverseDAGIndex.get_parents (s.edges ++ [(n, s.nextId)]) n =
      ReverseDAGIndex.get_parents s.edges n ++ [s.nextId] := by
    rw [get_parents_append]
    congr 1
    simp [ReverseDAGIndex.get_parents]
  have hfilter : (ReverseDAGIndex.get_parents s.edges n ++ [s.nextId]).filter
      (fun p => p ≠ s.nextId) = ReverseDAGIndex.get_parents s.edges n := by
    rw [List.filter_append]
    have h1 : (ReverseDAGIndex.get_parents s.edges n).filter
        (fun p => p ≠ s.nextId) = ReverseDAGIndex.get_parents s.edges n := by
      apply List.filter_eq_self.mpr
      intro p hp
      have := parents_lt h hp
      simp only [ne_eq, decide_eq_true_eq]
      omega
    have h2 : ([s.nextId].filter (fun p => p ≠ s.nextId)) = [] := by simp
    rw [h1, h2, List.append_nil]
  -- Step 3: rewiring the parents.
  have hkeys1 : ((s.heap ++ [(s.nextId, Node.predicate pred n)]).map
      Prod.fst).Nodup := by
    rw [List.map_append, List.nodup_append]
    refine ⟨h.heap_nodup, by simp, ?_⟩
    intro k hk hk2
    simp only [List.map_cons, List.map_nil, List.mem_singleton] at hk2
    have := h.heap_lt k hk
    omega
  have hcond : ∀ p ∈ ReverseDAGIndex.get_parents s.edges n, ∃ nd,
      lookupNode (s.heap ++ [(s.nextId, Node.predicate pred n)]) p = some nd ∧
        nd.get_inputs.count n = 1 := by
    intro p hp
    obtain ⟨nd, hlook, hone⟩ := parent_slot_one h hp
    exact ⟨nd, lookupNode_append_some hlook, hone⟩
  have hrw2 : rewire_parents (s.heap ++ [(s.nextId, Node.predicate pred n)])
      (ReverseDAGIndex.get_parents s.edges n) n s.nextId =
      .ok ((s.heap.map (fun q => (q.1, substNode n s.nextId q.2))) ++
        [(s.nextId, Node.predicate pred n)]) := by
    rw [rewire_parents_ok (ReverseDAGIndex.get_parents s.edges n)
      (s.heap ++ [(s.nextId, Node.predicate pred n)]) hkeys1
      (get_parents_nodup h.edges_nodup n) hcond]
    congr 1
    rw [List.map_append]
    congr 1
    · apply List.map_congr_left
      intro q hq
      by_cases hqp : q.1 ∈ ReverseDAGIndex.get_parents s.edges n
      · rw [if_pos hqp]
      · rw [if_neg hqp]
        have hcnt : q.2.get_inputs.count n = 0 := by
          by_contra hne
          have hlook := lookupNode_of_mem h.heap_nodup hq
          have hpo := h.heap_mem_owned hq
          have hsl := h.slot_eq hlook hpo n
          have hpos : 0 < s.edges.count (n, q.1) := by omega
          exact hqp (mem_get_parents.mpr (List.count_pos_iff.mp hpos))
        rw [substNode_id _ hcnt]
    · have hwp : s.nextId ∉ ReverseDAGIndex.get_parents s.edges n := by
        intro hmem
        have := parents_lt h hmem
        omega
      simp [hwp]
  -- Step 4: the three index updates.
  have hrm : ReverseDAGIndex.remove (s.edges ++ [(n, s.nextId)]) n s.nextId =
      .ok s.edges := by
    rw [remove_ok (by simp)]
    rw [List.erase_append_right _ hnmem]
    simp
  have hrp : ReverseDAGIndex.replace_input s.edges n s.nextId =
      .ok (s.edges.filter (fun e => e.1 ≠ n) ++
        (ReverseDAGIndex.get_parents s.edges n).map (fun p => (s.nextId, p))) :=
    replace_input_ok h.edges_nodup (h.fresh_parent_count le_rfl)
  have had : ReverseDAGIndex.add
      (s.edges.filter (fun e => e.1 ≠ n) ++
        (ReverseDAGIndex.get_parents s.edges n).map (fun p => (s.nextId, p)))
      n s.nextId =
      .ok (s.edges.filter (fun e => e.1 ≠ n) ++
        (ReverseDAGIndex.get_parents s.edges n).map (fun p => (s.nextId, p)) ++
        [(n, s.nextId)]) := by
    apply add_ok
    rw [List.mem_append]
    push_neg
    constructor
    · intro hmem
      have := (List.mem_filter.mp hmem).2
      simp at this
    · intro hmem
      rcases List.mem_map.mp hmem with ⟨p, _, hpair⟩
      exact hnw (congrArg Prod.fst hpair).symm
  -- Assemble.
  unfold LQP.wrap_node_with
  simp only [hmk]
  rw [hs1heap, hs1edges, hparents, hfilter]
  simp only [hrw2, hrm, hrp, had]
  rfl

/-! ### wrap_node_with preservation -/

theorem wrap_heap_lookup {s : LQPState} (h : WF s) (n : Nat) (pred : String)
    (x : Nat) :
    lookupNode (wrapResult s n pred).heap x =
      if x = s.nextId then some (.predicate pred n)
      else (lookupNode s.heap x).map (substNode n s.nextId) := by
  show lookupNode ((s.heap.map (fun q => (q.1, substNode n s.nextId q.2))) ++
    [(s.nextId, .predicate pred n)]) x = _
  rw [lookupNode_append, lookupNode_map_entry]
  by_cases hx : x = s.nextId
  · rw [hx, lookupNode_fresh h le_rfl]
    simp [lookupNode]
  · cases hl : lookupNode s.heap x with
    | none =>
      have hxx : ¬s.nextId = x := fun he => hx he.symm
      simp [lookupNode, hx, hxx]
    | some v => simp [hx]

theorem count_filter_child_ne (edges : DAGEdges) (old c p : Nat) :
    (edges.filter (fun e => e.1 ≠ old)).count (c, p) =
      if c = old then 0 else edges.count (c, p) := by
  by_cases hc : c = old
  · rw [if_pos hc, List.count_eq_zero]
    intro hmem
    have := (List.mem_filter.mp hmem).2
    rw [hc] at this
    simp at this
  · rw [if_neg hc, List.count_filter (by simp [hc])]

theorem wrap_edges_count {s : LQPState} (h : WF s) {n : Nat} (hn : n ∈ s.owned)
    (pred : String) (c p : Nat) :
    (wrapResult s n pred).edges.count (c, p) =
      if p = s.nextId then (if c = n then 1 else 0)
      else if c = s.nextId then s.edges.count (n, p)
      else if c = n then 0
      else s.edges.count (c, p) := by
  have hnlt : n < s.nextId := h.owned_lt hn
  have hnw : ¬n = s.nextId := by omega
  show (s.edges.filter (fun e => e.1 ≠ n) ++
      (ReverseDAGIndex.get_parents s.edges n).map (fun p => (s.nextId, p)) ++
      [(n, s.nextId)]).count (c, p) = _
  rw [List.count_append, List.count_append, count_filter_child_ne,
      count_map_pair_left, count_get_parents, count_singleton_pair]
  by_cases hp : p = s.nextId
  · by_cases hcn : c = n
    · have hcw : ¬c = s.nextId := by omega
      simp [hp, hcn, hcw, hnw]
    · by_cases hcw : c = s.nextId
      · have e2 : s.edges.count (n, s.nextId) = 0 :=
          h.fresh_edge_count (Or.inr le_rfl)
        have e4 : s.edges.count (s.nextId, s.nextId) = 0 :=
          h.fresh_edge_count (Or.inr le_rfl)
        simp [hp, hcn, hcw, e2, e4]
      · have e3 : s.edges.count (c, s.nextId) = 0 :=
          h.fresh_edge_count (Or.inr le_rfl)
        simp [hp, hcn, hcw, e3]
  · by_cases hcw : c = s.nextId
    · have hcn : ¬c = n := by omega
      have e5 : s.edges.count (s.nextId, p) = 0 :=
        h.fresh_edge_count (Or.inl le_rfl)
      simp [hp, hcn, hcw, e5]
    · by_cases hcn : c = n
      · simp [hp, hcn, hcw]
      · simp [hp, hcn, hcw]

theorem WF.wrap_node_with_wf {s : LQPState} {n : Nat} (h : WF s)
    (hn : n ∈ s.owned) (pred : String) : WF (wrapResult s n pred) := by
  have hnlt : n < s.nextId := h.owned_lt hn
  have hnw : ¬n = s.nextId := by omega
  have hlook2 := wrap_heap_lookup h n pred
  have hkeys : (wrapResult s n pred).heap.map Prod.fst =
      s.heap.map Prod.fst ++ [s.nextId] := by
    show ((s.heap.map (fun q : Nat × Node => (q.1, substNode n s.nextId q.2))) ++
      [(s.nextId, Node.predicate pred n)]).map Prod.fst =
        s.heap.map Prod.fst ++ [s.nextId]
    rw [List.map_append, List.map_map]
    rfl
  have hnlive : (lookupNode s.heap n).isSome = true := (h.owned_live n).mp hn
  constructor
  case heap_nodup =>
    rw [hkeys, List.nodup_append]
    refine ⟨h.heap_nodup, by simp, ?_⟩
    intro k hk hk2
    simp only [List.mem_singleton] at hk2
    have := h.heap_lt k hk
    omega
  case owned_nodup =>
    show (s.owned ++ [s.nextId]).Nodup
    rw [List.nodup_append]
    refine ⟨h.owned_nodup, by simp, ?_⟩
    intro k hk hk2
    simp only [List.mem_singleton] at hk2
    have := h.owned_lt hk
    omega
  case owned_live =>
    intro x
    show x ∈ s.owned ++ [s.nextId] ↔ _
    rw [List.mem_append, List.mem_singleton, hlook2 x]
    by_cases hx : x = s.nextId
    · simp [hx]
    · rw [if_neg hx]
      simp only [hx, or_false, Option.isSome_map']
      exact h.owned_live x
  case heap_lt =>
    intro k hk
    rw [hkeys, List.mem_append, List.mem_singleton] at hk
    show k < s.nextId + 1
    rcases hk with hk | rfl
    · have := h.heap_lt k hk
      omega
    · omega
  case inputs_live =>
    intro p nd' hlookp c hc
    rw [hlook2] at hlookp
    rw [hlook2]
    by_cases hp : p = s.nextId
    · rw [if_pos hp] at hlookp
      injection hlookp with hnd'
      rw [← hnd'] at hc
      simp only [Node.get_inputs, List.mem_singleton] at hc
      rw [hc]
      rw [if_neg hnw, Option.isSome_map']
      exact hnlive
    · rw [if_neg hp] at hlookp
      cases hl : lookupNode s.heap p with
      | none =>
        rw [hl] at hlookp
        exact absurd hlookp (by simp)
      | some ndp =>
        rw [hl] at hlookp
        injection hlookp with hnd'
        rw [← hnd', substNode_get_inputs] at hc
        rcases List.mem_map.mp hc with ⟨d, hd, hdc⟩
        by_cases hdn : d = n
        · rw [if_pos hdn] at hdc
          rw [← hdc]
          simp
        · rw [if_neg hdn] at hdc
          have hdl := h.inputs_live p ndp hl d hd
          have hdlt : d < s.nextId := h.live_lt hdl
          rw [← hdc, if_neg (by omega), Option.isSome_map']
          exact hdl
  case edge_bound =>
    intro e
    rcases e with ⟨c, p⟩
    rw [wrap_edges_count h hn pred c p]
    by_cases hp : p = s.nextId
    · rw [if_pos hp]
      by_cases hcn : c = n <;> simp [hcn]
    · rw [if_neg hp]
      by_cases hcw : c = s.nextId
      · rw [if_pos hcw]
        exact h.edge_bound (n, p)
      · rw [if_neg hcw]
        by_cases hcn : c = n
        · simp [hcn]
        · rw [if_neg hcn]
          exact h.edge_bound (c, p)
  case edge_inv =>
    intro c p
    rw [wrap_edges_count h hn pred c p]
    unfold slotCount
    rw [hlook2 p]
    by_cases hp : p = s.nextId
    · have hmem : p ∈ (wrapResult s n pred).owned := by
        show p ∈ s.owned ++ [s.nextId]
        simp [hp]
      rw [if_pos hp, if_pos hmem, if_pos hp]
      simp only [Option.map_some', Option.getD_some, Node.get_inputs]
      by_cases hcn : c = n
      · rw [if_pos hcn, hcn, List.count_cons_self, List.count_nil]
      · rw [if_neg hcn]
        exact (List.count_eq_zero.mpr (by
          simp only [List.mem_singleton]
          exact hcn)).symm
    · have hmem_iff : (p ∈ (wrapResult s n pred).owned) ↔ p ∈ s.owned := by
        show p ∈ s.owned ++ [s.nextId] ↔ _
        simp [hp]
      rw [if_neg hp, if_neg hp]
      by_cases hpo : p ∈ s.owned
      · rw [if_pos (hmem_iff.mpr hpo)]
        have hsome : (lookupNode s.heap p).isSome = true := (h.owned_live p).mp hpo
        cases hl : lookupNode s.heap p with
        | none =>
          rw [hl] at hsome
          simp at hsome
        | some ndp =>
          simp only [Option.map_some', Option.getD_some, substNode_get_inputs]
          rw [count_map_swap _ _ _ hnw]
          have hwz : ndp.get_inputs.count s.nextId = 0 := by
            rw [List.count_eq_zero]
            intro hmem
            have := h.live_lt (h.inputs_live p ndp hl _ hmem)
            omega
          have hsn := h.slot_eq hl hpo n
          have hsc := h.slot_eq hl hpo c
          by_cases hcn : c = n
          · rw [hcn, if_neg hnw, if_pos rfl, if_pos rfl]
          · by_cases hcw : c = s.nextId
            · have hwn : ¬s.nextId = n := fun he => hnw he.symm
              rw [hcw, if_pos rfl, if_neg hwn, if_pos rfl, hwz]
              rw [hcw] at hsc
              omega
            · rw [if_neg hcw, if_neg hcn, if_neg hcn, if_neg hcw]
              exact hsc
      · rw [if_neg (fun hm => hpo (hmem_iff.mp hm))]
        have hz : ∀ d, s.edges.count (d, p) = 0 := by
          intro d
          have := h.edge_inv d p
          unfold slotCount at this
          rw [if_neg hpo] at this
          exact this
        by_cases hcw : c = s.nextId
        · rw [if_pos hcw, hz n]
        · rw [if_neg hcw]
          by_cases hcn : c = n
          · rw [if_pos hcn]
          · rw [if_neg hcn, hz c]

/-! ### bypass_node preservation -/

theorem sum_zero_of_ref_zero {heap : List (Nat × Node)} {n : Nat}
    (h : ref_count_heap heap n = 0) {q : Nat × Node} (hq : q ∈ heap) :
    q.2.get_inputs.count n = 0 := by
  unfold ref_count_heap at h
  have := List.sum_eq_zero_iff.mp h
  exact this _ (List.mem_map_of_mem _ hq)

theorem WF.bypass_node_wf {s : LQPState} {n : Nat} {s3 : LQPState}
    (h : WF s) (hok : LQP.bypass_node s n = (.ok (), s3)) : WF s3 := by
  cases hlook : lookupNode s.heap n with
  | none => simp [LQP.bypass_node, hlook] at hok
  | some nd =>
    cases nd with
    | storedTable str => simp [LQP.bypass_node, hlook] at hok
    | join l r => simp [LQP.bypass_node, hlook] at hok
    | predicate str g =>
      simp only [LQP.bypass_node, hlook] at hok
      have hcond : ∀ p ∈ ReverseDAGIndex.get_parents s.edges n, ∃ ndp,
          lookupNode s.heap p = some ndp ∧ ndp.get_inputs.count n = 1 :=
        fun p hp => parent_slot_one h hp
      have hrw := @rewire_parents_ok n g
        (ReverseDAGIndex.get_parents s.edges n)
        s.heap h.heap_nodup (get_parents_nodup h.edges_nodup n) hcond
      simp only [hrw] at hok
      -- the rewired heap, written as a total map
      have hheap2 : (s.heap.map (fun q =>
          if q.1 ∈ ReverseDAGIndex.get_parents s.edges n
          then (q.1, substNode n g q.2) else q)) =
          s.heap.map (fun q => (q.1, substNode n g q.2)) := by
        apply List.map_congr_left
        intro q hq
        by_cases hqp : q.1 ∈ ReverseDAGIndex.get_parents s.edges n
        · rw [if_pos hqp]
        · rw [if_neg hqp]
          have hcnt : q.2.get_inputs.count n = 0 := by
            by_contra hne
            have hlookq := lookupNode_of_mem h.heap_nodup hq
            have hpo := h.heap_mem_owned hq
            have hsl := h.slot_eq hlookq hpo n
            have hpos : 0 < s.edges.count (n, q.1) := by omega
            exact hqp (mem_get_parents.mpr (List.count_pos_iff.mp hpos))
          rw [substNode_id _ hcnt]
      rw [hheap2] at hok
      have hlookup2 : ∀ x, lookupNode
          (s.heap.map (fun q => (q.1, substNode n g q.2))) x =
          (lookupNode s.heap x).map (substNode n g) :=
        fun x => lookupNode_map_entry (substNode n g) s.heap x
      -- the borrow-count check must have passed
      by_cases href : ref_count_heap
          (s.heap.map (fun q => (q.1, substNode n g q.2))) n ≠ 0
      · rw [if_pos href] at hok
        exact absurd hok (by simp)
      rw [if_neg href] at hok
      push_neg at href
      -- the ownership check must have passed
      by_cases hn : n ∈ s.owned
      case neg =>
        rw [if_pos hn] at hok
        exact absurd hok (by simp)
      rw [if_neg (fun hc => hc hn)] at hok
      -- the bypassed node cannot be its own input
      have hnlive : (lookupNode s.heap n).isSome = true := by
        rw [hlook]
        rfl
      have hmemn : (n, substNode n g (.predicate str g)) ∈
          s.heap.map (fun q => (q.1, substNode n g q.2)) := by
        have := lookupNode_mem hlook
        have h2 := List.mem_map_of_mem (fun q => (q.1, substNode n g q.2)) this
        simpa using h2
      have hgn : ¬g = n := by
        intro hge
        have hz := sum_zero_of_ref_zero href hmemn
        rw [substNode_get_inputs] at hz
        simp only [Node.get_inputs, List.map_cons, List.map_nil] at hz
        rw [hge] at hz
        simp at hz
      have hng : ¬n = g := fun he => hgn he.symm
      -- the (g, n) edge exists and is unique
      have hslotn : ∀ c, s.edges.count (c, n) =
          (Node.predicate str g).get_inputs.count c :=
        fun c => h.slot_eq hlook hn c
      have hgmem : (g, n) ∈ s.edges := by
        rw [← List.count_pos_iff, hslotn g]
        simp [Node.get_inputs]
      have hrm : ReverseDAGIndex.remove s.edges g n =
          .ok (s.edges.erase (g, n)) := remove_ok hgmem
      simp only [hrm] at hok
      -- the replace_input check must have passed
      by_cases hzg : ReverseDAGIndex.get_parent_count (s.edges.erase (g, n)) g ≠ 0
      · have : ReverseDAGIndex.replace_input (s.edges.erase (g, n)) n g =
            .error .TargetAlreadyHasParents := by
          unfold ReverseDAGIndex.replace_input
          rw [if_pos hzg]
        simp only [this] at hok
        exact absurd hok (by simp)
      push_neg at hzg
      have hrp := @replace_input_ok (s.edges.erase (g, n)) n g
        (h.edges_nodup.erase (g, n)) hzg
      simp only [hrp] at hok
      -- now hok equates s3 with the explicit record
      have hs3 : s3 = { s with
          heap := (s.heap.map (fun q => (q.1, substNode n g q.2))).filter
            (fun q => q.1 ≠ n),
          owned := s.owned.filter (fun m => m ≠ n),
          edges := (s.edges.erase (g, n)).filter (fun e => e.1 ≠ n) ++
            (ReverseDAGIndex.get_parents (s.edges.erase (g, n)) n).map
              (fun p => (g, p)) } := by
        exact (congrArg Prod.snd hok).symm
      subst hs3
      -- edge counts of the result
      have her : ∀ x : Nat × Nat, (s.edges.erase (g, n)).count x =
          s.edges.count x - (if x = (g, n) then 1 else 0) := by
        intro x
        rw [List.count_erase]
        by_cases hx : x = (g, n)
        · simp [hx]
        · have hb : (((g, n) : Nat × Nat) == x) = false := by
            simp only [beq_eq_false_iff_ne, ne_eq]
            exact fun he => hx he.symm
          rw [hb, if_neg hx]
          simp
      have hzg2 : ∀ p, (s.edges.erase (g, n)).count (g, p) = 0 := by
        intro p
        rw [List.count_eq_zero]
        exact (get_parent_count_eq_zero_iff _ g).mp hzg p
      have hgcount : ∀ p, s.edges.count (g, p) = if p = n then 1 else 0 := by
        intro p
        have h1 := her (g, p)
        have h2 := hzg2 p
        by_cases hp : p = n
        · rw [if_pos hp]
          have h3 := hslotn g
          simp only [Node.get_inputs] at h3
          rw [hp] at h1 ⊢
          rw [if_pos rfl] at h1
          have h4 : s.edges.count (g, n) = 1 := by
            rw [h3]
            simp
          omega
        · rw [if_neg hp]
          rw [if_neg (by simp [hp])] at h1
          omega
      have hecount : ∀ c p : Nat,
          ((s.edges.erase (g, n)).filter (fun e => e.1 ≠ n) ++
            (ReverseDAGIndex.get_parents (s.edges.erase (g, n)) n).map
              (fun p => (g, p))).count (c, p) =
          (if c = n then 0 else
            s.edges.count (c, p) - (if (c, p) = (g, n) then 1 else 0)) +
          (if c = g then s.edges.count (n, p) else 0) := by
        intro c p
        rw [List.count_append, count_filter_child_ne, count_map_pair_left,
          count_get_parents, her (c, p), her (n, p)]
        have : ((n, p) = (g, n)) ↔ False := by
          simp only [Prod.mk.injEq, iff_false, not_and]
          intro hna
          exact absurd hna hng
        rw [if_neg this.mp]
        simp only [Nat.sub_zero]
      constructor
      ·
        have hkeysHH : (s.heap.map (fun q => (q.1, substNode n g q.2))).map
            Prod.fst = s.heap.map Prod.fst := by
          rw [List.map_map]
          rfl
        have hsub : List.Sublist
            (((s.heap.map (fun q => (q.1, substNode n g q.2))).filter
              (fun q => q.1 ≠ n)).map Prod.fst)
            ((s.heap.map (fun q => (q.1, substNode n g q.2))).map Prod.fst) :=
          (List.filter_sublist _).map Prod.fst
        rw [hkeysHH] at hsub
        exact h.heap_nodup.sublist hsub
      · exact h.owned_nodup.filter _
      ·
        intro x
        show x ∈ s.owned.filter (fun m => m ≠ n) ↔ _
        rw [lookupNode_filter_ne]
        by_cases hx : x = n
        · rw [if_pos hx]
          simp only [Option.isSome_none, Bool.false_eq_true, iff_false]
          intro hmem
          rw [hx] at hmem
          have := (List.mem_filter.mp hmem).2
          simp at this
        · rw [if_neg hx, hlookup2 x, Option.isSome_map']
          rw [List.mem_filter]
          have hd : (decide (x ≠ n)) = true := by simp [hx]
          rw [hd]
          simp only [and_true]
          exact h.owned_live x
      ·
        intro k hk
        apply h.heap_lt
        rcases List.mem_map.mp hk with ⟨q, hq, rfl⟩
        have hq2 := List.mem_of_mem_filter hq
        rcases List.mem_map.mp hq2 with ⟨q0, hq0, rfl⟩
        exact List.mem_map.mpr ⟨q0, hq0, rfl⟩
      ·
        intro p nd' hlookp c hc
        rw [lookupNode_filter_ne] at hlookp
        by_cases hp : p = n
        · rw [if_pos hp] at hlookp
          exact absurd hlookp (by simp)
        · rw [if_neg hp, hlookup2 p] at hlookp
          cases hl : lookupNode s.heap p with
          | none =>
            rw [hl] at hlookp
            exact absurd hlookp (by simp)
          | some ndp =>
            rw [hl] at hlookp
            injection hlookp with hnd'
            rw [← hnd', substNode_get_inputs] at hc
            rcases List.mem_map.mp hc with ⟨d, hd, hdc⟩
            have hcn : ¬c = n := by
              intro hceq
              have hqmem : ((p, substNode n g ndp) : Nat × Node) ∈
                  s.heap.map (fun q => (q.1, substNode n g q.2)) := by
                have hm := lookupNode_mem hl
                have h2 := List.mem_map_of_mem
                  (fun q : Nat × Node => (q.1, substNode n g q.2)) hm
                simpa using h2
              have hz := sum_zero_of_ref_zero href hqmem
              show False
              have hzz : (substNode n g ndp).get_inputs.count n = 0 := hz
              rw [substNode_get_inputs] at hzz
              rw [hceq] at hc
              have hpos := List.count_pos_iff.mpr hc
              omega
            have hclive : (lookupNode s.heap c).isSome = true := by
              by_cases hdn : d = n
              · rw [if_pos hdn] at hdc
                rw [← hdc]
                exact h.inputs_live n _ hlook g (by simp [Node.get_inputs])
              · rw [if_neg hdn] at hdc
                rw [← hdc]
                exact h.inputs_live p ndp hl d hd
            rw [lookupNode_filter_ne, if_neg hcn, hlookup2 c, Option.isSome_map']
            exact hclive
      ·
        intro e
        rcases e with ⟨c, p⟩
        rw [hecount c p]
        have h1 := h.edge_bound (c, p)
        have h2 := h.edge_bound (n, p)
        by_cases hc1 : c = n
        · rw [if_pos hc1, if_neg (by rw [hc1]; exact hng)]
          omega
        · rw [if_neg hc1]
          by_cases hc2 : c = g
          · rw [if_pos hc2, hc2, hgcount p]
            by_cases hpn : p = n
            · rw [if_pos hpn]
              have hpair : ((g, p) = ((g, n) : Nat × Nat)) := by rw [hpn]
              rw [if_pos hpair]
              omega
            · rw [if_neg hpn]
              have hpair : ¬((g, p) = ((g, n) : Nat × Nat)) := by
                simp only [Prod.mk.injEq, not_and]
                intro _
                exact hpn
              rw [if_neg hpair]
              omega
          · rw [if_neg hc2]
            omega
      ·
        intro c p
        rw [hecount c p]
        unfold slotCount
        rw [lookupNode_filter_ne]
        by_cases hp : p = n
        · have hnm : p ∉ s.owned.filter (fun m => m ≠ n) := by
            intro hmem
            rw [hp] at hmem
            have := (List.mem_filter.mp hmem).2
            simp at this
          rw [if_neg hnm]
          by_cases hc1 : c = n
          · rw [if_pos hc1, if_neg (by rw [hc1]; exact hng)]
          · rw [if_neg hc1]
            by_cases hc2 : c = g
            · rw [if_pos hc2, hc2, hp]
              have hh1 : s.edges.count (g, n) = 1 := by
                rw [hslotn g]
                simp [Node.get_inputs]
              have hh2 : s.edges.count (n, n) = 0 := by
                rw [hslotn n]
                simp only [Node.get_inputs]
                rw [List.count_eq_zero]
                simp only [List.mem_singleton]
                exact hng
              rw [if_pos rfl, hh1, hh2]
            · rw [if_neg hc2, hp]
              have hpair : ¬((c, n) = ((g, n) : Nat × Nat)) := by
                simp only [Prod.mk.injEq, not_and]
                intro hcg
                exact absurd hcg hc2
              rw [if_neg hpair]
              have hh3 : s.edges.count (c, n) = 0 := by
                rw [hslotn c]
                simp only [Node.get_inputs]
                rw [List.count_eq_zero]
                simp only [List.mem_singleton]
                exact hc2
              rw [hh3]
        · have hmem_iff : p ∈ s.owned.filter (fun m => m ≠ n) ↔ p ∈ s.owned := by
            rw [List.mem_filter]
            have hd : (decide (p ≠ n)) = true := by simp [hp]
            rw [hd]
            simp
          have hpair : ¬((c, p) = ((g, n) : Nat × Nat)) := by
            simp only [Prod.mk.injEq, not_and]
            intro _
            exact hp
          rw [if_neg hp, hlookup2 p]
          by_cases hpo : p ∈ s.owned
          · rw [if_pos (hmem_iff.mpr hpo)]
            have hsome : (lookupNode s.heap p).isSome = true :=
              (h.owned_live p).mp hpo
            cases hl : lookupNode s.heap p with
            | none =>
              rw [hl] at hsome
              simp at hsome
            | some ndp =>
              simp only [Option.map_some', Option.getD_some, substNode_get_inputs]
              rw [count_map_swap _ _ _ hng]
              have hsg : s.edges.count (g, p) = ndp.get_inputs.count g :=
                h.slot_eq hl hpo g
              have hsn2 : s.edges.count (n, p) = ndp.get_inputs.count n :=
                h.slot_eq hl hpo n
              have hsc : s.edges.count (c, p) = ndp.get_inputs.count c :=
                h.slot_eq hl hpo c
              have hgz : ndp.get_inputs.count g = 0 := by
                have := hgcount p
                rw [if_neg hp] at this
                omega
              by_cases hc1 : c = n
              · rw [if_pos hc1, if_pos hc1,
                  if_neg (fun hcg => hng (hc1.symm.trans hcg))]
              · rw [if_neg hc1, if_neg hc1]
                by_cases hc2 : c = g
                · rw [if_pos hc2, if_pos hc2, if_neg hpair, hc2]
                  omega
                · rw [if_neg hc2, if_neg hc2, if_neg hpair]
                  omega
          · rw [if_neg (fun hm => hpo (hmem_iff.mp hm))]
            have hz : ∀ d, s.edges.count (d, p) = 0 := by
              intro d
              have := h.edge_inv d p
              unfold slotCount at this
              rw [if_neg hpo] at this
              exact this
            by_cases hc1 : c = n
            · rw [if_pos hc1, if_neg (by rw [hc1]; exact hng)]
            · rw [if_neg hc1, if_neg hpair, hz c, hz n]
              by_cases hc2 : c = g
              · rw [if_pos hc2]
              · rw [if_neg hc2]

/-! ### Wrap followed by bypass -/

theorem substNode_cancel {n w : Nat} {nd : Node}
    (hw : nd.get_inputs.count w = 0) :
    substNode w n (substNode n w nd) = nd := by
  rw [List.count_eq_zero] at hw
  cases nd with
  | storedTable s => rfl
  | predicate s i =>
    have hiw : ¬i = w := by
      intro he
      exact hw (by simp [Node.get_inputs, he])
    by_cases hi : i = n
    · simp [substNode, hi]
    · simp [substNode, hi, hiw]
  | join l r =>
    have hlw : ¬l = w := by
      intro he
      exact hw (by simp [Node.get_inputs, he])
    have hrw : ¬r = w := by
      intro he
      exact hw (by simp [Node.get_inputs, he])
    by_cases hl : l = n
    · by_cases hr : r = n
      · simp [substNode, hl, hr]
      · simp [substNode, hl, hr, hrw]
    · by_cases hr : r = n
      · simp [substNode, hl, hr, hlw]
      · simp [substNode, hl, hr, hlw, hrw]

theorem get_parents_map_pair_self (ps : List Nat) (w : Nat) :
    ReverseDAGIndex.get_parents (ps.map (fun p => (w, p))) w = ps := by
  unfold ReverseDAGIndex.get_parents
  rw [List.filter_map, List.map_map]
  have h1 : ((fun (e : Nat × Nat) => decide (e.1 = w)) ∘ (fun p => (w, p))) =
      fun _ => true := by
    funext x
    simp
  rw [h1, List.filter_true]
  have h2 : (Prod.snd ∘ fun (p : Nat) => ((w, p) : Nat × Nat)) = id := by
    funext x
    rfl
  rw [h2, List.map_id]

theorem ref_count_heap_append (h1 h2 : List (Nat × Node)) (n : Nat) :
    ref_count_heap (h1 ++ h2) n = ref_count_heap h1 n + ref_count_heap h2 n := by
  unfold ref_count_heap
  rw [List.map_append, List.sum_append]

/-- Bypassing the wrapper created by a successful `wrap_node_with`
restores the wrapped graph: the live objects and the ownership map return
exactly to the pre-wrap state, and the index holds the pre-wrap edge
multiset with `n`'s parent links rebuilt behind the surviving links. -/
theorem wrap_bypass_inverse {s : LQPState} {n : Nat} (h : WF s)
    (hn : n ∈ s.owned) (pred : String) :
    LQP.bypass_node (wrapResult s n pred) s.nextId =
      (.ok (), { s with
                  edges := s.edges.filter (fun e => e.1 ≠ n) ++
                    (ReverseDAGIndex.get_parents s.edges n).map
                      (fun p => (n, p)),
                  nextId := s.nextId + 1 }) := by
  have hw := WF.wrap_node_with_wf h hn pred
  have hnlt : n < s.nextId := h.owned_lt hn
  have hnw : ¬n = s.nextId := by omega
  have hwn : ¬s.nextId = n := fun he => hnw he.symm
  have hrefs : ref_count_heap s.heap s.nextId = 0 := h.fresh_ref_count le_rfl
  have hwnotpar : s.nextId ∉ ReverseDAGIndex.get_parents s.edges n := by
    intro hc
    have := parents_lt h hc
    omega
  -- the wrapper is looked up in the wrapped heap
  have hlookw : lookupNode (wrapResult s n pred).heap s.nextId =
      some (.predicate pred n) := by
    rw [wrap_heap_lookup h, if_pos rfl]
  -- the wrapper inherited exactly the parents the wrapped node had
  have hgpA : ReverseDAGIndex.get_parents
      (s.edges.filter (fun e => e.1 ≠ n)) s.nextId = [] := by
    apply get_parents_eq_nil
    rw [get_parent_count_eq_zero_iff]
    intro p hmem
    have := h.edge_mem_lt (List.mem_of_mem_filter hmem)
    omega
  have hgpB : ReverseDAGIndex.get_parents
      ((ReverseDAGIndex.get_parents s.edges n).map
        (fun p => (s.nextId, p))) s.nextId =
      ReverseDAGIndex.get_parents s.edges n :=
    get_parents_map_pair_self _ _
  have hgpC : ReverseDAGIndex.get_parents [((n, s.nextId) : Nat × Nat)]
      s.nextId = [] := by
    unfold ReverseDAGIndex.get_parents
    rw [List.filter_cons, if_neg (by simp [hnw])]
    rfl
  have hgp : ReverseDAGIndex.get_parents (wrapResult s n pred).edges
      s.nextId = ReverseDAGIndex.get_parents s.edges n := by
    show ReverseDAGIndex.get_parents
      (s.edges.filter (fun e => e.1 ≠ n) ++
        (ReverseDAGIndex.get_parents s.edges n).map (fun p => (s.nextId, p)) ++
        [(n, s.nextId)]) s.nextId = _
    rw [get_parents_append, get_parents_append, hgpA, hgpB, hgpC]
    simp
  -- rewiring the wrapper's parents back to `n`
  have hrwcond : ∀ p ∈ ReverseDAGIndex.get_parents s.edges n, ∃ nd,
      lookupNode (wrapResult s n pred).heap p = some nd ∧
      nd.get_inputs.count s.nextId = 1 := by
    intro p hp
    obtain ⟨nd0, hl0, hc0⟩ := parent_slot_one h hp
    have hne : ¬p = s.nextId := by
      have := parents_lt h hp
      omega
    refine ⟨substNode n s.nextId nd0, ?_, ?_⟩
    · rw [wrap_heap_lookup h, if_neg hne, hl0]
      rfl
    · rw [substNode_get_inputs, count_map_swap _ _ _ hnw, if_neg hwn,
        if_pos rfl]
      have hz : nd0.get_inputs.count s.nextId = 0 :=
        sum_zero_of_ref_zero hrefs (lookupNode_mem hl0)
      omega
  have hrw := @rewire_parents_ok s.nextId n
    (ReverseDAGIndex.get_parents s.edges n) (wrapResult s n pred).heap
    hw.heap_nodup (get_parents_nodup h.edges_nodup n) hrwcond
  -- the rewired heap is the pre-wrap heap plus the wrapper
  have hheap3 : ((wrapResult s n pred).heap.map (fun q =>
      if q.1 ∈ ReverseDAGIndex.get_parents s.edges n
      then (q.1, substNode s.nextId n q.2) else q)) =
      s.heap ++ [(s.nextId, Node.predicate pred n)] := by
    show ((s.heap.map (fun q => (q.1, substNode n s.nextId q.2)) ++
        [(s.nextId, Node.predicate pred n)]).map (fun q =>
        if q.1 ∈ ReverseDAGIndex.get_parents s.edges n
        then (q.1, substNode s.nextId n q.2) else q)) = _
    rw [List.map_append, List.map_map]
    congr 1
    · have hid : ∀ q ∈ s.heap,
          ((fun q => if q.1 ∈ ReverseDAGIndex.get_parents s.edges n
            then (q.1, substNode s.nextId n q.2) else q) ∘
           (fun q : Nat × Node => (q.1, substNode n s.nextId q.2))) q =
          id q := by
        intro q hq
        have hzw : q.2.get_inputs.count s.nextId = 0 :=
          sum_zero_of_ref_zero hrefs hq
        show (if q.1 ∈ ReverseDAGIndex.get_parents s.edges n
          then (q.1, substNode s.nextId n (substNode n s.nextId q.2))
          else (q.1, substNode n s.nextId q.2)) = q
        by_cases hqp : q.1 ∈ ReverseDAGIndex.get_parents s.edges n
        · rw [if_pos hqp, substNode_cancel hzw]
        · rw [if_neg hqp]
          have hlookq := lookupNode_of_mem h.heap_nodup hq
          have hqo := h.heap_mem_owned hq
          have hslot := h.slot_eq hlookq hqo n
          have hcnt : q.2.get_inputs.count n = 0 := by
            have hzc : s.edges.count (n, q.1) = 0 := by
              rw [List.count_eq_zero]
              intro hcmem
              exact hqp (mem_get_parents.mpr hcmem)
            omega
          rw [substNode_id _ hcnt]
      rw [List.map_congr_left hid, List.map_id]
    · show [if s.nextId ∈ ReverseDAGIndex.get_parents s.edges n
        then ((s.nextId, substNode s.nextId n (Node.predicate pred n)) : Nat × Node)
        else (s.nextId, Node.predicate pred n)] = _
      rw [if_neg hwnotpar]
  -- the wrapper's borrow count is zero after the rewiring
  have href3 : ref_count_heap (s.heap ++ [(s.nextId, Node.predicate pred n)])
      s.nextId = 0 := by
    rw [ref_count_heap_append, hrefs]
    show 0 + ([(s.nextId, Node.predicate pred n)].map
      (fun q => q.2.get_inputs.count s.nextId)).sum = 0
    simp [Node.get_inputs, List.count_cons, hnw]
  have hwown : s.nextId ∈ (wrapResult s n pred).owned := by
    show s.nextId ∈ s.owned ++ [s.nextId]
    simp
  -- removing the transient (n, wrapper) edge
  have hnotinAB : ((n, s.nextId) : Nat × Nat) ∉
      s.edges.filter (fun e => e.1 ≠ n) ++
      (ReverseDAGIndex.get_parents s.edges n).map (fun p => (s.nextId, p)) := by
    intro hmem
    rcases List.mem_append.mp hmem with hmA | hmB
    · have := (List.mem_filter.mp hmA).2
      simp at this
    · rcases List.mem_map.mp hmB with ⟨p, _, hpe⟩
      have : s.nextId = n := congrArg Prod.fst hpe
      exact hwn this
  have hrm : ReverseDAGIndex.remove (wrapResult s n pred).edges n s.nextId =
      .ok (s.edges.filter (fun e => e.1 ≠ n) ++
        (ReverseDAGIndex.get_parents s.edges n).map (fun p => (s.nextId, p))) := by
    have hmem : ((n, s.nextId) : Nat × Nat) ∈ (wrapResult s n pred).edges := by
      show (n, s.nextId) ∈ s.edges.filter (fun e => e.1 ≠ n) ++
        (ReverseDAGIndex.get_parents s.edges n).map (fun p => (s.nextId, p)) ++
        [(n, s.nextId)]
      simp
    rw [remove_ok hmem]
    congr 1
    show (s.edges.filter (fun e => e.1 ≠ n) ++
      (ReverseDAGIndex.get_parents s.edges n).map (fun p => (s.nextId, p)) ++
      [(n, s.nextId)]).erase (n, s.nextId) = _
    rw [List.erase_append_right _ hnotinAB]
    simp
  -- migrating the wrapper's parent links back to `n`
  have hndAB : (s.edges.filter (fun e => e.1 ≠ n) ++
      (ReverseDAGIndex.get_parents s.edges n).map
        (fun p => (s.nextId, p))).Nodup := by
    have hsub : List.Sublist
        (s.edges.filter (fun e => e.1 ≠ n) ++
          (ReverseDAGIndex.get_parents s.edges n).map (fun p => (s.nextId, p)))
        (s.edges.filter (fun e => e.1 ≠ n) ++
          (ReverseDAGIndex.get_parents s.edges n).map (fun p => (s.nextId, p)) ++
          [(n, s.nextId)]) :=
      List.sublist_append_left _ _
    exact hw.edges_nodup.sublist hsub
  have h0AB : ReverseDAGIndex.get_parent_count
      (s.edges.filter (fun e => e.1 ≠ n) ++
        (ReverseDAGIndex.get_parents s.edges n).map
          (fun p => (s.nextId, p))) n = 0 := by
    rw [get_parent_count_eq_zero_iff]
    intro p hmem
    rcases List.mem_append.mp hmem with hmA | hmB
    · have := (List.mem_filter.mp hmA).2
      simp at this
    · rcases List.mem_map.mp hmB with ⟨x, _, hpe⟩
      have : s.nextId = n := congrArg Prod.fst hpe
      exact hwn this
  have hAf : (s.edges.filter (fun e => e.1 ≠ n)).filter
      (fun e => e.1 ≠ s.nextId) = s.edges.filter (fun e => e.1 ≠ n) := by
    apply List.filter_eq_self.mpr
    intro e he
    have := h.edge_mem_lt (List.mem_of_mem_filter he)
    simp only [ne_eq, decide_eq_true_eq]
    omega
  have hBf : ((ReverseDAGIndex.get_parents s.edges n).map
      (fun p => (s.nextId, p))).filter (fun e => e.1 ≠ s.nextId) = [] := by
    rw [List.filter_map]
    have h1 : ((fun (e : Nat × Nat) => decide (e.1 ≠ s.nextId)) ∘
        (fun p => (s.nextId, p))) = fun _ => false := by
      funext x
      simp
    rw [h1, List.filter_false]
    rfl
  have hrpl : ReverseDAGIndex.replace_input
      (s.edges.filter (fun e => e.1 ≠ n) ++
        (ReverseDAGIndex.get_parents s.edges n).map (fun p => (s.nextId, p)))
      s.nextId n =
      .ok (s.edges.filter (fun e => e.1 ≠ n) ++
        (ReverseDAGIndex.get_parents s.edges n).map (fun p => (n, p))) := by
    rw [replace_input_ok hndAB h0AB]
    congr 1
    rw [List.filter_append, get_parents_append, hgpA, hgpB, hAf, hBf]
    simp
  -- the owned and heap filters undo the wrap additions
  have hheapf : (s.heap ++ [(s.nextId, Node.predicate pred n)]).filter
      (fun q => q.1 ≠ s.nextId) = s.heap := by
    rw [List.filter_append]
    have h1 : s.heap.filter (fun q => q.1 ≠ s.nextId) = s.heap := by
      apply List.filter_eq_self.mpr
      intro q hq
      have := h.heap_lt q.1 (List.mem_map_of_mem Prod.fst hq)
      simp only [ne_eq, decide_eq_true_eq]
      omega
    rw [h1]
    simp
  have hownf : (wrapResult s n pred).owned.filter
      (fun m => m ≠ s.nextId) = s.owned := by
    show (s.owned ++ [s.nextId]).filter (fun m => m ≠ s.nextId) = s.owned
    rw [List.filter_append]
    have h1 : s.owned.filter (fun m => m ≠ s.nextId) = s.owned := by
      apply List.filter_eq_self.mpr
      intro m hm
      have := h.owned_lt hm
      simp only [ne_eq, decide_eq_true_eq]
      omega
    rw [h1]
    simp
  -- assemble
  simp only [LQP.bypass_node, hlookw, hgp, hrw, hheap3]
  rw [if_neg (fun hc => hc href3), if_neg (fun hc => hc hwown)]
  simp only [hrm, hrpl, hheapf, hownf]
  rfl

/-- Rebuilding `n`'s parent links behind the surviving links does not
change the edge multiset: each (child, parent) pair keeps its
multiplicity. -/
theorem restored_edges_count (edges : DAGEdges) (n c p : Nat) :
    (edges.filter (fun e => e.1 ≠ n) ++
      (ReverseDAGIndex.get_parents edges n).map (fun q => (n, q))).count (c, p) =
    edges.count (c, p) := by
  rw [List.count_append, count_filter_child_ne, count_map_pair_left,
    count_get_parents]
  by_cases hc : c = n
  · rw [if_pos hc, if_pos hc, hc]
    omega
  · rw [if_neg hc, if_neg hc]
    omega

theorem restored_edges_perm (edges : DAGEdges) (n : Nat) :
    (edges.filter (fun e => e.1 ≠ n) ++
      (ReverseDAGIndex.get_parents edges n).map (fun q => (n, q))).Perm edges := by
  rw [List.perm_iff_count]
  intro e
  rcases e with ⟨c, p⟩
  rw [count_decEq_eq_count, count_decEq_eq_count]
  exact restored_edges_count edges n c p

/-! ### States reachable through the public interface -/

/-- The states produced from the empty container by sequences of
**successful** public operations.  `make_node` is called with references
to existing nodes as inputs and `wrap_node_with` with a node owned by
this container, as the C++ signatures require.  Failed calls are
deliberately excluded: a failed recoverable operation can leave the
container in a state outside this predicate (see the lockstep
counterexamples). -/
inductive Reachable : LQPState → Prop where
  | empty : Reachable ⟨[], [], [], none, 0⟩
  | make {s : LQPState} {nd : Node} {s2 : LQPState} {i : Nat} :
      Reachable s → (∀ c ∈ nd.get_inputs, isLive s c) →
      LQP.make_node s nd = (.ok i, s2) → Reachable s2
  | remove {s : LQPState} {n : Nat} {s2 : LQPState} :
      Reachable s → LQP.remove_node s n = (.ok (), s2) → Reachable s2
  | wrap {s : LQPState} {n : Nat} {pred : String} {s2 : LQPState} {w : Nat} :
      Reachable s → n ∈ s.owned →
      LQP.wrap_node_with s n pred = .ok (s2, w) → Reachable s2
  | bypass {s : LQPState} {n : Nat} {s2 : LQPState} :
      Reachable s → LQP.bypass_node s n = (.ok (), s2) → Reachable s2
  | root {s : LQPState} {n : Nat} :
      Reachable s → isLive s n → Reachable (LQP.set_root s n)

/-- Every reachable state is well-formed. -/
theorem reachable_wf {s : LQPState} (h : Reachable s) : WF s := by
  induction h with
  | empty =>
    refine ⟨?_, ?_, ?_, ?_, ?_, ?_, ?_⟩
    · simp
    · simp
    · intro n
      simp [lookupNode]
    · simp
    · intro p nd hl
      simp [lookupNode] at hl
    · intro e
      simp
    · intro c p
      simp [slotCount]
  | make hr hin hok ih => exact ih.make_node_wf hin hok
  | remove hr hok ih => exact ih.remove_node_wf hok
  | wrap hr hn hok ih =>
    rename_i s n pred s2 w
    have hw := wrap_node_with_ok ih hn pred
    rw [hw] at hok
    injection hok with h2
    have h3 : wrapResult s n pred = s2 := congrArg Prod.fst h2
    rw [← h3]
    exact ih.wrap_node_with_wf hn pred
  | bypass hr hok ih => exact ih.bypass_node_wf hok
  | root hr hl ih => exact ih.set_root_wf _

/-! ### A concrete reachable graph -/

/-- The empty container. -/
def ex0 : LQPState := ⟨[], [], [], none, 0⟩

/-- One stored table. -/
def exA : LQPState :=
  ⟨[(0, .storedTable "a")], [0], [], none, 1⟩

/-- Two stored tables. -/
def exB : LQPState :=
  ⟨[(0, .storedTable "a"), (1, .storedTable "b")], [0, 1], [], none, 2⟩

/-- Two stored tables under a join. -/
def exJ : LQPState :=
  ⟨[(0, .storedTable "a"), (1, .storedTable "b"), (2, .join 0 1)],
   [0, 1, 2], [(0, 2), (1, 2)], none, 3⟩

/-- The example plan of `main`: a predicate over a join of two stored
tables, with the predicate as root. -/
def exP : LQPState :=
  ⟨[(0, .storedTable "a"), (1, .storedTable "b"), (2, .join 0 1),
    (3, .predicate "p" 2)],
   [0, 1, 2, 3], [(0, 2), (1, 2), (2, 3)], some 3, 4⟩

/-- The example plan before `set_root`. -/
def exPpre : LQPState :=
  ⟨[(0, .storedTable "a"), (1, .storedTable "b"), (2, .join 0 1),
    (3, .predicate "p" 2)],
   [0, 1, 2, 3], [(0, 2), (1, 2), (2, 3)], none, 4⟩

theorem reachable_ex0 : Reachable ex0 := .empty

theorem reachable_exA : Reachable exA :=
  @Reachable.make ex0 (.storedTable "a") exA 0
    reachable_ex0 (by decide) rfl

theorem reachable_exB : Reachable exB :=
  @Reachable.make exA (.storedTable "b") exB 1
    reachable_exA (by decide) rfl

theorem reachable_exJ : Reachable exJ :=
  @Reachable.make exB (.join 0 1) exJ 2
    reachable_exB (by decide) rfl

theorem reachable_exPpre : Reachable exPpre :=
  @Reachable.make exJ (.predicate "p" 2) exPpre 3
    reachable_exJ (by decide) rfl

theorem reachable_exP : Reachable exP :=
  Reachable.root (s := exPpre) (n := 3) reachable_exPpre (by decide)

theorem wf_exP : WF exP := reachable_wf reachable_exP

theorem wf_exA : WF exA := reachable_wf reachable_exA

/-- The state after the failed `make_node<JoinNode>(a, a)` call on the
one-table graph: the first (a, join) edge stays recorded although the
half-built join was destroyed and never stored. -/
def exStale : LQPState :=
  ⟨[(0, .storedTable "a")], [0], [(0, 1)], none, 2⟩

/-- A table, a predicate over it, and a join reading both the predicate
and the table. -/
def exAP : LQPState :=
  ⟨[(0, .storedTable "a"), (1, .predicate "p" 0)], [0, 1], [(0, 1)], none, 2⟩

def exPJ : LQPState :=
  ⟨[(0, .storedTable "a"), (1, .predicate "p" 0), (2, .join 1 0)],
   [0, 1, 2], [(0, 1), (1, 2), (0, 2)], none, 3⟩

theorem reachable_exAP : Reachable exAP :=
  @Reachable.make exA (.predicate "p" 0) exAP 1
    reachable_exA (by decide) rfl

theorem reachable_exPJ : Reachable exPJ :=
  @Reachable.make exAP (.join 1 0) exPJ 2
    reachable_exAP (by decide) rfl

/-- The state after the failed `bypass_node` on the predicate of `exPJ`:
the predicate was destroyed and its parent rewired to `Join(0, 0)` before
`replace_input` threw `TargetAlreadyHasParents`, leaving the stale (1, 2)
edge. -/
def exStaleB : LQPState :=
  ⟨[(0, .storedTable "a"), (2, .join 0 0)], [0, 2], [(1, 2), (0, 2)],
   none, 3⟩

/-! ### Claim-level helper lemmas -/

theorem wrap_parents_of_wrapped {s : LQPState} {n : Nat} (h : WF s)
    (hn : n ∈ s.owned) (pred : String) :
    ReverseDAGIndex.get_parents (wrapResult s n pred).edges n = [s.nextId] := by
  have hnlt : n < s.nextId := h.owned_lt hn
  have hnw : ¬n = s.nextId := by omega
  show ReverseDAGIndex.get_parents
    (s.edges.filter (fun e => e.1 ≠ n) ++
      (ReverseDAGIndex.get_parents s.edges n).map (fun p => (s.nextId, p)) ++
      [(n, s.nextId)]) n = _
  rw [get_parents_append, get_parents_append]
  have hA : ReverseDAGIndex.get_parents
      (s.edges.filter (fun e => e.1 ≠ n)) n = [] := by
    apply get_parents_eq_nil
    rw [get_parent_count_eq_zero_iff]
    intro p hmem
    have := (List.mem_filter.mp hmem).2
    simp at this
  have hB : ReverseDAGIndex.get_parents
      ((ReverseDAGIndex.get_parents s.edges n).map
        (fun p => (s.nextId, p))) n = [] := by
    apply get_parents_eq_nil
    rw [get_parent_count_eq_zero_iff]
    intro p hmem
    rcases List.mem_map.mp hmem with ⟨x, _, hpe⟩
    exact hnw (congrArg Prod.fst hpe).symm
  have hC : ReverseDAGIndex.get_parents [((n, s.nextId) : Nat × Nat)] n =
      [s.nextId] := by
    unfold ReverseDAGIndex.get_parents
    rw [List.filter_cons, if_pos (by simp)]
    rfl
  rw [hA, hB, hC]
  rfl

theorem wrap_parents_of_wrapper {s : LQPState} {n : Nat} (h : WF s)
    (hn : n ∈ s.owned) (pred : String) :
    ReverseDAGIndex.get_parents (wrapResult s n pred).edges s.nextId =
      ReverseDAGIndex.get_parents s.edges n := by
  have hnlt : n < s.nextId := h.owned_lt hn
  have hnw : ¬n = s.nextId := by omega
  show ReverseDAGIndex.get_parents
    (s.edges.filter (fun e => e.1 ≠ n) ++
      (ReverseDAGIndex.get_parents s.edges n).map (fun p => (s.nextId, p)) ++
      [(n, s.nextId)]) s.nextId = _
  rw [get_parents_append, get_parents_append]
  have hA : ReverseDAGIndex.get_parents
      (s.edges.filter (fun e => e.1 ≠ n)) s.nextId = [] := by
    apply get_parents_eq_nil
    rw [get_parent_count_eq_zero_iff]
    intro p hmem
    have := h.edge_mem_lt (List.mem_of_mem_filter hmem)
    omega
  have hB := get_parents_map_pair_self (ReverseDAGIndex.get_parents s.edges n)
    s.nextId
  have hC : ReverseDAGIndex.get_parents [((n, s.nextId) : Nat × Nat)]
      s.nextId = [] := by
    unfold ReverseDAGIndex.get_parents
    rw [List.filter_cons, if_neg (by simp [hnw])]
    rfl
  rw [hA, hB, hC]
  simp

/-! ### The claims -/

/-- C1 (amended): after a successful `wrap_node_with` on an owned node
`n`, the wrapped node's parent count is 1, not 0 — its single recorded
parent is the wrapper itself, via the re-added (n, wrapper) edge.  The
wrapper's parent count equals `n`'s parent count before the call, and
every other live node's slots are `n`'s slots rewritten to the wrapper. -/
theorem claim_C1 {s : LQPState} {n : Nat} (h : WF s) (hn : n ∈ s.owned)
    (pred : String) :
    LQP.wrap_node_with s n pred = .ok (wrapResult s n pred, s.nextId) ∧
    ReverseDAGIndex.get_parents (wrapResult s n pred).edges n = [s.nextId] ∧
    ReverseDAGIndex.get_parent_count (wrapResult s n pred).edges s.nextId =
      ReverseDAGIndex.get_parent_count s.edges n ∧
    ∀ x, x ≠ s.nextId →
      lookupNode (wrapResult s n pred).heap x =
        (lookupNode s.heap x).map (substNode n s.nextId) := by
  refine ⟨wrap_node_with_ok h hn pred, wrap_parents_of_wrapped h hn pred,
    ?_, ?_⟩
  · rw [get_parent_count_eq_length, get_parent_count_eq_length,
      wrap_parents_of_wrapper h hn pred]
  · intro x hx
    rw [wrap_heap_lookup h, if_neg hx]

/-- C1 counterexample to the original claim: wrapping node 0 of the
example plan leaves node 0 with parent count 1, not 0. -/
theorem claim_C1_counterexample :
    LQP.wrap_node_with exP 0 "q" = .ok (wrapResult exP 0 "q", 4) ∧
    ReverseDAGIndex.get_parent_count (wrapResult exP 0 "q").edges 0 = 1 :=
  ⟨rfl, rfl⟩

theorem claim_C1_witness :
    0 ∈ exP.owned ∧
    (LQP.wrap_node_with exP 0 "q" = .ok (wrapResult exP 0 "q", exP.nextId) ∧
     ReverseDAGIndex.get_parents (wrapResult exP 0 "q").edges 0 =
       [exP.nextId] ∧
     ReverseDAGIndex.get_parent_count (wrapResult exP 0 "q").edges
       exP.nextId = ReverseDAGIndex.get_parent_count exP.edges 0 ∧
     ∀ x, x ≠ exP.nextId →
       lookupNode (wrapResult exP 0 "q").heap x =
         (lookupNode exP.heap x).map (substNode 0 exP.nextId)) :=
  ⟨by decide, claim_C1 wf_exP (by decide) "q"⟩

/-- C2 (amended): the lockstep invariant holds only across *successful*
operations: in every state reachable from the empty container by a
sequence of successful public operations, the recorded parent count of
any node equals the number of owned nodes whose input list contains it,
and the index's edge multiset is exactly the one derivable by scanning
every owned live node's input list.  A failed recoverable call can break
the invariant (see the counterexample): a failed `make_node` keeps the
edges added before the throw, and a failed `bypass_node` keeps the
destroyed node's stale parent edge. -/
theorem claim_C2 {s : LQPState} (h : Reachable s) :
    (∀ n, n ∈ s.owned →
      ReverseDAGIndex.get_parent_count s.edges n = numOwnedParents s n) ∧
    s.edges.Perm (canonFrom s.heap s.owned) := by
  have hw := reachable_wf h
  exact ⟨fun n _ => hw.parent_count_eq_numOwnedParents n, hw.edges_perm_canon⟩

theorem claim_C2_witness :
    Reachable exP ∧
    ((∀ n, n ∈ exP.owned →
      ReverseDAGIndex.get_parent_count exP.edges n = numOwnedParents exP n) ∧
     exP.edges.Perm (canonFrom exP.heap exP.owned)) :=
  ⟨reachable_exP, claim_C2 reachable_exP⟩

/-- C2 counterexample to the original claim ("any sequence of the
operations"): two failed-but-recoverable calls from states built by
successful operations leave the index out of lockstep.  A failed
`make_node<JoinNode>(a, a)` keeps the (a, join) edge of the destroyed
join, so node 0 has parent count 1 with no owning parent and the edge
multiset is not the scanned one; a failed `bypass_node` (its
`replace_input` throws `TargetAlreadyHasParents` on a diamond) keeps the
destroyed predicate's stale parent edge, so node 1 has parent count 1
with no owning parent. -/
theorem claim_C2_counterexample :
    Reachable exA ∧
    LQP.make_node exA (.join 0 0) = (.error .DuplicateEdge, exStale) ∧
    ReverseDAGIndex.get_parent_count exStale.edges 0 = 1 ∧
    numOwnedParents exStale 0 = 0 ∧
    ¬exStale.edges.Perm (canonFrom exStale.heap exStale.owned) ∧
    Reachable exPJ ∧
    LQP.bypass_node exPJ 1 = (.error .TargetAlreadyHasParents, exStaleB) ∧
    ReverseDAGIndex.get_parent_count exStaleB.edges 1 = 1 ∧
    numOwnedParents exStaleB 1 = 0 :=
  ⟨reachable_exA, rfl, rfl, by decide, by decide,
   reachable_exPJ, rfl, rfl, by decide⟩

/-- C3: bypassing the wrapper immediately after wrapping an owned node
`n` restores the graph: the live objects, the ownership map and the root
return exactly to the pre-wrap state, the edge multiset is a permutation
of the pre-wrap one, and the wrapper is gone from ownership and index. -/
theorem claim_C3 {s : LQPState} {n : Nat} (h : WF s) (hn : n ∈ s.owned)
    (pred : String) :
    LQP.wrap_node_with s n pred = .ok (wrapResult s n pred, s.nextId) ∧
    ∃ s3, LQP.bypass_node (wrapResult s n pred) s.nextId = (.ok (), s3) ∧
      s3.heap = s.heap ∧ s3.owned = s.owned ∧ s3.root = s.root ∧
      s3.edges.Perm s.edges ∧
      s.nextId ∉ s3.owned ∧
      ReverseDAGIndex.get_parent_count s3.edges s.nextId = 0 := by
  have hnlt : n < s.nextId := h.owned_lt hn
  refine ⟨wrap_node_with_ok h hn pred,
    ⟨_, wrap_bypass_inverse h hn pred, rfl, rfl, rfl,
     restored_edges_perm s.edges n, ?_, ?_⟩⟩
  · show s.nextId ∉ s.owned
    intro hc
    have := h.owned_lt hc
    omega
  · show ReverseDAGIndex.get_parent_count
      (s.edges.filter (fun e => e.1 ≠ n) ++
        (ReverseDAGIndex.get_parents s.edges n).map (fun q => (n, q)))
      s.nextId = 0
    rw [get_parent_count_eq_zero_iff]
    intro p hmem
    rcases List.mem_append.mp hmem with hmA | hmB
    · have := h.edge_mem_lt (List.mem_of_mem_filter hmA)
      omega
    · rcases List.mem_map.mp hmB with ⟨x, _, hpe⟩
      have : n = s.nextId := congrArg Prod.fst hpe
      omega

theorem claim_C3_witness :
    0 ∈ exP.owned ∧
    (LQP.wrap_node_with exP 0 "q" = .ok (wrapResult exP 0 "q", exP.nextId) ∧
     ∃ s3, LQP.bypass_node (wrapResult exP 0 "q") exP.nextId = (.ok (), s3) ∧
       s3.heap = exP.heap ∧ s3.owned = exP.owned ∧ s3.root = exP.root ∧
       s3.edges.Perm exP.edges ∧
       exP.nextId ∉ s3.owned ∧
       ReverseDAGIndex.get_parent_count s3.edges exP.nextId = 0) :=
  ⟨by decide, claim_C3 wf_exP (by decide) "q"⟩

/-- C4 (amended): `make_node` also fails when the reverse index rejects
an edge — constructing a node whose input list repeats the same node
(a self-join `Join(a, a)`) makes the second `ReverseDAGIndex::add` throw
`DuplicateEdge` before the node is stored.  With pairwise-distinct inputs
the call succeeds. -/
theorem claim_C4 {s : LQPState} (h : WF s) (nd : Node) :
    (nd.get_inputs.Nodup →
      LQP.make_node s nd = (.ok s.nextId, makeResult s nd)) ∧
    (¬nd.get_inputs.Nodup →
      (LQP.make_node s nd).1 = .error .DuplicateEdge) := by
  constructor
  · intro hnd
    apply make_node_ok hnd
    intro c hc hmem
    have hz := h.fresh_edge_count (c := c) (p := s.nextId) (Or.inr le_rfl)
    rw [List.count_eq_zero] at hz
    exact hz hmem
  · intro hnd
    have herr : (add_edge_list s.edges
        (nd.get_inputs.map (fun c => (c, s.nextId)))).1 =
        .error .DuplicateEdge :=
      add_edge_list_err (Or.inl (fun hmapnd => hnd (hmapnd.of_map _)))
    rcases hadd : add_edge_list s.edges
      (nd.get_inputs.map (fun c => (c, s.nextId))) with ⟨r, e2⟩
    rw [hadd] at herr
    simp only [LQP.make_node, hadd]
    cases r with
    | error err => simpa using herr
    | ok u => exact absurd herr (by simp)

/-- C4 counterexample to the original claim: a join of one stored table
with itself is a constructible node, yet `make_node` fails with the
reverse-index error `DuplicateEdge`. -/
theorem claim_C4_counterexample :
    LQP.make_node exA (.join 0 0) = (.error .DuplicateEdge, exStale) := rfl

theorem claim_C4_witness :
    ¬(Node.join 0 0).get_inputs.Nodup ∧
    (LQP.make_node exA (.join 0 0)).1 = .error .DuplicateEdge :=
  ⟨by decide, (claim_C4 wf_exA (.join 0 0)).2 (by decide)⟩

/-- C5: node-level `replace_input(old, new)` by arity: a leaf always
fails with `NotReplaceable`; a single-input node rewires its slot exactly
when `old` is (the identity of) its current input, else fails with
`InputNotFound`; a join tries the left slot first, then the right slot,
rewiring exactly the first matching slot, and fails with `InputNotFound`
when neither slot holds `old`. -/
theorem claim_C5 :
    (∀ str old nw, (Node.storedTable str).replace_input old nw =
      .error .NotReplaceable) ∧
    (∀ str i old nw, (Node.predicate str i).replace_input old nw =
      (if old = i then .ok (.predicate str nw) else .error .InputNotFound)) ∧
    (∀ l r old nw, (Node.join l r).replace_input old nw =
      (if old = l then .ok (.join nw r)
       else if old = r then .ok (.join l nw)
       else .error .InputNotFound)) :=
  ⟨fun _ _ _ => rfl, fun _ _ _ _ => rfl, fun _ _ _ _ => rfl⟩

/-- C6: over any duplicate-free index state (the class invariant its own
`add` maintains), `replace_input(old, new)` fails with
`TargetAlreadyHasParents` exactly when `new` already has a recorded
parent; on success, `old` is left with zero parents and `new`'s parent
list is exactly `old`'s former parent list. -/
theorem claim_C6 (edges : DAGEdges) (old nw : Nat) (hnd : edges.Nodup) :
    (ReverseDAGIndex.replace_input edges old nw =
        .error .TargetAlreadyHasParents ↔
      ReverseDAGIndex.get_parent_count edges nw ≠ 0) ∧
    ∀ e2, ReverseDAGIndex.replace_input edges old nw = .ok e2 →
      ReverseDAGIndex.get_parent_count e2 old = 0 ∧
      ReverseDAGIndex.get_parents e2 nw =
        ReverseDAGIndex.get_parents edges old := by
  by_cases h0 : ReverseDAGIndex.get_parent_count edges nw = 0
  · have hok := @replace_input_ok edges old nw hnd h0
    constructor
    · constructor
      · intro herr
        rw [hok] at herr
        exact absurd herr (by simp)
      · intro hne
        exact absurd h0 hne
    · intro e2 he2
      rw [hok] at he2
      injection he2 with he2
      subst he2
      constructor
      · rw [get_parent_count_eq_zero_iff]
        intro p hmem
        rcases List.mem_append.mp hmem with hmA | hmB
        · have := (List.mem_filter.mp hmA).2
          simp at this
        · rcases List.mem_map.mp hmB with ⟨x, hx, hpe⟩
          have hnwold : nw = old := congrArg Prod.fst hpe
          rw [get_parents_eq_nil edges old (hnwold ▸ h0)] at hx
          exact absurd hx (List.not_mem_nil x)
      · rw [get_parents_append, get_parents_map_pair_self]
        have hA : ReverseDAGIndex.get_parents
            (edges.filter (fun e => e.1 ≠ old)) nw = [] := by
          apply get_parents_eq_nil
          rw [get_parent_count_eq_zero_iff]
          intro p hmem
          exact (get_parent_count_eq_zero_iff edges nw).mp h0 p
            (List.mem_of_mem_filter hmem)
        rw [hA]
        rfl
  · have herr : ReverseDAGIndex.replace_input edges old nw =
        .error .TargetAlreadyHasParents := by
      unfold ReverseDAGIndex.replace_input
      rw [if_pos h0]
    refine ⟨⟨fun _ => h0, fun _ => herr⟩, ?_⟩
    intro e2 he2
    rw [herr] at he2
    exact absurd he2 (by simp)

theorem claim_C6_witness :
    ([((0 : Nat), (2 : Nat))] : DAGEdges).Nodup ∧
    ((ReverseDAGIndex.replace_input [(0, 2)] 0 1 =
        .error .TargetAlreadyHasParents ↔
      ReverseDAGIndex.get_parent_count [(0, 2)] 1 ≠ 0) ∧
     ∀ e2, ReverseDAGIndex.replace_input [(0, 2)] 0 1 = .ok e2 →
       ReverseDAGIndex.get_parent_count e2 0 = 0 ∧
       ReverseDAGIndex.get_parents e2 1 =
         ReverseDAGIndex.get_parents [(0, 2)] 0) :=
  ⟨by decide, claim_C6 [(0, 2)] 0 1 (by decide)⟩

/-- C7: on a live node with zero borrow count but at least one recorded
parent edge, `remove_node` fails with `HasParents` and returns with the
state completely unchanged — the failing check runs before any index
mutation. -/
theorem claim_C7 {s : LQPState} {n : Nat} (hl : isLive s n)
    (href : s.ref_count n = 0)
    (hp : ReverseDAGIndex.get_parent_count s.edges n ≠ 0) :
    LQP.remove_node s n = (.error .HasParents, s) := by
  unfold isLive at hl
  rw [Option.isSome_iff_exists] at hl
  obtain ⟨nd, hnd⟩ := hl
  simp only [LQP.remove_node, hnd]
  rw [if_neg (fun hc => hc href), if_pos hp]

/-- An index state whose edge (0, 5) is not mirrored by any input slot:
borrow count and recorded parents can then disagree. -/
def exDesync : LQPState :=
  ⟨[(0, .storedTable "a")], [0], [(0, 5)], none, 1⟩

theorem claim_C7_witness :
    isLive exDesync 0 ∧ exDesync.ref_count 0 = 0 ∧
    ReverseDAGIndex.get_parent_count exDesync.edges 0 ≠ 0 ∧
    LQP.remove_node exDesync 0 = (.error .HasParents, exDesync) :=
  ⟨by decide, by decide, by decide,
   claim_C7 (by decide) (by decide) (by decide)⟩

/-- C8: `visit` invokes the visitor on the node first, with the state it
was called with; when the visitor returns `false` no input is visited;
when it returns `true` each input is visited in input-list order, every
input receiving its own copy of the state as mutated by this node's
visitor invocation — sibling subtrees never observe each other's
mutations. -/
theorem claim_C8 {σ : Type} (heap : List (Nat × Node))
    (f : Node → σ → Bool × σ) (fuel n : Nat) (st : σ) {nd : Node}
    (hl : lookupNode heap n = some nd) :
    ((f nd st).1 = false →
      LQP.visit heap f (fuel + 1) n st = [(n, st)]) ∧
    ((f nd st).1 = true →
      LQP.visit heap f (fuel + 1) n st =
        (n, st) :: (nd.get_inputs.map
          (fun c => LQP.visit heap f fuel c (f nd st).2)).flatten) := by
  constructor <;> intro hflag <;> simp [LQP.visit, hl, hflag]

/-- The indentation visitor of `print_lqp`: always continue, bump the
indentation by two. -/
def exVisitor : Node → Nat → Bool × Nat := fun _ ind => (true, ind + 2)

theorem claim_C8_witness :
    lookupNode exP.heap 3 = some (Node.predicate "p" 2) ∧
    (LQP.visit exP.heap exVisitor 10 3 0 =
      (3, 0) :: (((Node.predicate "p" 2).get_inputs.map
        (fun c => LQP.visit exP.heap exVisitor 9 c
          (exVisitor (Node.predicate "p" 2) 0).2)).flatten)) ∧
    LQP.visit exP.heap exVisitor 10 3 0 =
      [(3, 0), (2, 2), (0, 4), (1, 4)] :=
  ⟨rfl, (claim_C8 exP.heap exVisitor 9 3 0 rfl).2 rfl, rfl⟩

/-- C9 (amended): `make_node` returns a plain (uncounted) reference: after
a successful call the new node's borrow count is 0, and an immediately
attempted `remove_node` on it succeeds rather than failing with
`NonZeroRefCount`. -/
theorem claim_C9 {s : LQPState} {nd : Node} {s2 : LQPState} {i : Nat}
    (h : WF s) (hin : ∀ c ∈ nd.get_inputs, isLive s c)
    (hok : LQP.make_node s nd = (.ok i, s2)) :
    s2.ref_count i = 0 ∧ (LQP.remove_node s2 i).1 = .ok () := by
  have h2 : WF s2 := h.make_node_wf hin hok
  obtain ⟨hi, hs2, hnd, hfr⟩ := make_node_ok_inv hok
  subst hi
  subst hs2
  have hinlt : ∀ c ∈ nd.get_inputs, c < s.nextId := by
    intro c hc
    exact h.live_lt (hin c hc)
  have hnotin : s.nextId ∉ nd.get_inputs := by
    intro hc
    have := hinlt _ hc
    omega
  have href : (makeResult s nd).ref_count s.nextId = 0 := by
    show ref_count_heap (s.heap ++ [(s.nextId, nd)]) s.nextId = 0
    rw [ref_count_heap_append]
    have h1 : ref_count_heap s.heap s.nextId = 0 := h.fresh_ref_count le_rfl
    rw [h1]
    show 0 + ([(s.nextId, nd)].map
      (fun q => q.2.get_inputs.count s.nextId)).sum = 0
    simp [List.count_eq_zero, hnotin]
  have hlook : lookupNode (makeResult s nd).heap s.nextId = some nd := by
    show lookupNode (s.heap ++ [(s.nextId, nd)]) s.nextId = some nd
    rw [lookupNode_append, lookupNode_fresh h le_rfl]
    simp [lookupNode]
  have hmem : s.nextId ∈ (makeResult s nd).owned := by
    show s.nextId ∈ s.owned ++ [s.nextId]
    simp
  have hpar : ReverseDAGIndex.get_parent_count (makeResult s nd).edges
      s.nextId = 0 := by
    rw [get_parent_count_eq_zero_iff]
    intro p hmem2
    rcases List.mem_append.mp hmem2 with hmA | hmB
    · have := h.edge_mem_lt hmA
      omega
    · rcases List.mem_map.mp hmB with ⟨c, hc, hpe⟩
      have hcp : c = s.nextId := congrArg Prod.fst hpe
      rw [hcp] at hc
      exact hnotin hc
  obtain ⟨e2, heq, _⟩ := remove_node_ok h2 hlook hmem href hpar
  rw [heq]
  exact ⟨href, rfl⟩

/-- C9 counterexample to the original claim: immediately after
`make_node` creates node 1, its borrow count is 0 and `remove_node`
succeeds. -/
theorem claim_C9_counterexample :
    LQP.make_node exA (.storedTable "b") = (.ok 1, exB) ∧
    exB.ref_count 1 = 0 ∧
    (LQP.remove_node exB 1).1 = .ok () :=
  ⟨rfl, rfl, rfl⟩

theorem claim_C9_witness :
    LQP.make_node exA (.storedTable "b") = (.ok 1, exB) ∧
    (exB.ref_count 1 = 0 ∧ (LQP.remove_node exB 1).1 = .ok ()) :=
  ⟨rfl, @claim_C9 exA (.storedTable "b") exB 1 wf_exA (by decide) rfl⟩

/-- C10: `remove_node` mutates the reverse index before its ownership
check: on a live node with zero borrow count and zero recorded parents
that is not in the ownership map, the call returns the error produced by
the per-input edge removals (`NodeNotFound` when every removal succeeded,
in particular for a leaf; the removal error otherwise), and the returned
state keeps whatever the removals did to the index — the heap and
ownership map are untouched but the index is not rolled back. -/
theorem claim_C10 {s : LQPState} {n : Nat} {nd : Node}
    (hl : lookupNode s.heap n = some nd)
    (href : s.ref_count n = 0)
    (hp : ReverseDAGIndex.get_parent_count s.edges n = 0)
    (hno : n ∉ s.owned) :
    LQP.remove_node s n =
      ((match (remove_edge_list s.edges
          (nd.get_inputs.map (fun c => (c, n)))).1 with
        | .ok _ => .error .NodeNotFound
        | .error err => .error err),
       { s with edges := (remove_edge_list s.edges
          (nd.get_inputs.map (fun c => (c, n)))).2 }) := by
  simp only [LQP.remove_node, hl]
  rw [if_neg (fun hc => hc href), if_neg (fun hc => hc hp)]
  rcases hrun : remove_edge_list s.edges
    (nd.get_inputs.map (fun c => (c, n))) with ⟨r, e2⟩
  cases r with
  | ok u =>
    cases u
    simp [hno]
  | error err => rfl

/-- A node with a repeated input when only one copy of the edge is in the
index: the second removal of the same edge fails after the first one
already went through. -/
def exDesync2 : LQPState :=
  ⟨[(0, .storedTable "a"), (1, .join 0 0)], [0], [(0, 1)], none, 2⟩

theorem claim_C10_witness :
    lookupNode exDesync2.heap 1 = some (Node.join 0 0) ∧
    exDesync2.ref_count 1 = 0 ∧
    ReverseDAGIndex.get_parent_count exDesync2.edges 1 = 0 ∧
    1 ∉ exDesync2.owned ∧
    LQP.remove_node exDesync2 1 =
      (.error .EdgeNotFound, { exDesync2 with edges := [] }) :=
  ⟨rfl, rfl, rfl, by decide,
   @claim_C10 exDesync2 1 (.join 0 0) rfl rfl rfl (by decide)⟩

end LQPProto
